import Mathlib

/-!
Verification of the BackLens call-graph engine against its specification.

The definitions below are shallow embeddings of the TypeScript sources:

* `packages/graph-store/src/algorithms/traversal.ts` — BFS flat traversals,
  DFS trees, all-simple-paths DFS, hotspot computation;
* `packages/graph-store/src/api/GraphAPIImpl.ts` — the query API layer
  (`buildFlatResult`, `buildFilteredTree`, `hotspots`, `allCallChains`);
* `packages/graph-store/src/api/filterUtils.ts` — node filtering (we embed
  the default-options case: a node passes iff it is present in the table);
* `packages/graph-store/src/core-ir-processor/buildGraph.ts` — the graph
  builder;
* the parser's project-level Pass 1.5/Pass 2 resolution
  (`parseFileDetailed` sentinel resolution, `parseProject` registries and
  call resolution).

SQLite tables are embedded as lists of rows; prepared statements become
list filters.  JavaScript `Map`s keyed by strings become association lists
(first-match lookup; the sources never insert a duplicate key into the
per-file maps).  The JS engine's stable `Array.sort` and the deterministic
row order of the queries are embedded as a stable insertion sort.
-/

/-! ## Query-engine data model (tables `nodes` and `edges`) -/

/-- Row of the `edges` table: columns `from_id`, `to_id`, `type`
    (field `etype` embeds the SQL column `type`, a Lean keyword). -/
structure GEdge where
  from_id : String
  to_id : String
  etype : String
deriving DecidableEq, Repr

/-- Row of the `nodes` table: columns `id`, `type` (field `ntype`). -/
structure GNode where
  id : String
  ntype : String
deriving DecidableEq, Repr

/-- The graph database: the two tables. -/
structure DB where
  nodes : List GNode
  edges : List GEdge
deriving DecidableEq, Repr

/-- `createTraversalHelpers.immediateCallers`:
    `SELECT from_id, to_id, type, meta FROM edges WHERE to_id = ?`
    (no filter on the edge `type` column), projected to the `from_id`
    column the caller reads. -/
def immediateCallersIds (db : DB) (nodeId : String) : List String :=
  (db.edges.filter (fun e => e.to_id == nodeId)).map (·.from_id)

/-- `createTraversalHelpers.immediateCallees`:
    `SELECT ... FROM edges WHERE from_id = ?`, projected to `to_id`. -/
def immediateCalleesIds (db : DB) (nodeId : String) : List String :=
  (db.edges.filter (fun e => e.from_id == nodeId)).map (·.to_id)

/-- Whether a node id is present in the `nodes` table.  With default
    `QueryOptions` (no include/exclude lists), `filterNode` keeps a node
    iff `nodeStore.get` returned a row, i.e. iff the id is present. -/
def nodePresent (db : DB) (id : String) : Bool :=
  db.nodes.any (fun n => n.id == id)

/-- Modelled from the spec: "BFS over reverse/forward call edges, visited
    set keyed by node ID" with edge kinds restricted to `call` and
    `method_call`.  This is the spec's words, for comparison with the
    source's unfiltered neighbor query; it is not in the source. -/
def immediateCalleesCallOnly (db : DB) (nodeId : String) : List String :=
  (db.edges.filter
      (fun e => e.from_id == nodeId && (e.etype == "call" || e.etype == "method_call"))).map
    (·.to_id)

/-! ## BFS flat traversal (`transitiveCallersFlat` / `transitiveCalleesFlat`)

The `while` loop pops `(id, depth)` from a FIFO queue; when
`depth >= maxDepth` the node is not expanded (`continue`); otherwise each
neighbor not in the visited set is added to visited, appended to the
result and enqueued at `depth + 1`.  The loop is embedded with a fuel
parameter; every queue push corresponds to a fresh visited node, so
`db.edges.length + 2` fuel always drains the queue. -/

/-- Body of the inner `for` loop over a popped node's neighbors.  State is
    `(queue, visited, result)`. -/
def bfsFold (depth : Nat) (acc : List (String × Nat) × List String × List String)
    (p : String) : List (String × Nat) × List String × List String :=
  if p ∈ acc.2.1 then acc
  else (acc.1 ++ [(p, depth + 1)], p :: acc.2.1, acc.2.2 ++ [p])

/-- The BFS `while` loop. -/
def bfsAux (nbrs : String → List String) (maxDepth : Nat) :
    Nat → List (String × Nat) → List String → List String → List String
  | 0, _, _, res => res
  | _ + 1, [], _, res => res
  | fuel + 1, (id, depth) :: qs, vis, res =>
    if maxDepth ≤ depth then bfsAux nbrs maxDepth fuel qs vis res
    else
      let s := (nbrs id).foldl (bfsFold depth) (qs, vis, res)
      bfsAux nbrs maxDepth fuel s.1 s.2.1 s.2.2

/-- Fuel sufficient to drain the BFS queue (see the master lemma below). -/
def bfsFuel (db : DB) : Nat :=
  db.edges.length + 2

/-- `transitiveCallersFlat(db, startId, maxDepth)`. -/
def transitiveCallersFlat (db : DB) (startId : String) (maxDepth : Nat) : List String :=
  bfsAux (immediateCallersIds db) maxDepth (bfsFuel db) [(startId, 0)] [startId] []

/-- `transitiveCalleesFlat(db, startId, maxDepth)`. -/
def transitiveCalleesFlat (db : DB) (startId : String) (maxDepth : Nat) : List String :=
  bfsAux (immediateCalleesIds db) maxDepth (bfsFuel db) [(startId, 0)] [startId] []

/-- Modelled from the spec: the flat callee traversal as the spec words it,
    i.e. the same BFS but over forward `call`/`method_call` edges only. -/
def transitiveCalleesFlatSpecCalls (db : DB) (startId : String) (maxDepth : Nat) :
    List String :=
  bfsAux (immediateCalleesCallOnly db) maxDepth (bfsFuel db) [(startId, 0)] [startId] []

/-- `GraphAPIImpl.transitiveCalleesFlat` / `buildFlatResult` with default
    options: the raw id list keeps exactly the ids present in the node
    table (`filterNodes` drops the `nodeStore.get` misses), in order. -/
def transitiveCalleesFlatAPI (db : DB) (startId : String) (maxDepth : Nat) : List String :=
  (transitiveCalleesFlat db startId maxDepth).filter (nodePresent db)

/-- `GraphAPIImpl.transitiveCallersFlat` with default options (raw ids). -/
def transitiveCallersFlatAPI (db : DB) (startId : String) (maxDepth : Nat) : List String :=
  (transitiveCallersFlat db startId maxDepth).filter (nodePresent db)

/-! ## DFS trees (`transitiveCallersTree` / `transitiveCalleesTree`)

`build(nodeId, depth)` returns `{ id, children }`; a visited child becomes
a leaf, an unvisited child is marked visited and recursed into, and at
`depth > maxDepth` the node is returned with no children.  The visited set
is threaded through the whole DFS (JS mutates one `Set`).  Fuel
`maxDepth + 1 - depth` replaces the `depth` counter. -/

/-- The raw recursive tree: `{ id, children }`. -/
inductive RawTree where
  | node (id : String) (children : List RawTree)
deriving Repr

/-- Root id of a raw tree. -/
def RawTree.rootId : RawTree → String
  | .node i _ => i

/-- One pass of the `for` loop over a node's neighbor list: visited
    neighbors become leaves, fresh ones are visited and built via `rec`
    (the recursion one depth deeper).  Returns `(children, visited)`. -/
def treeBuildStep (rec : String → List String → RawTree × List String) :
    List String → List String → List RawTree × List String
  | [], vis => ([], vis)
  | t :: ts, vis =>
    if t ∈ vis then
      let r := treeBuildStep rec ts vis
      (RawTree.node t [] :: r.1, r.2)
    else
      let s := rec t (t :: vis)
      let r := treeBuildStep rec ts s.2
      (s.1 :: r.1, r.2)

/-- `build(nodeId, depth)` with fuel `maxDepth + 1 - depth`:
    fuel `0` is the `depth > maxDepth` leaf case. -/
def treeBuild (nbrs : String → List String) : Nat → String → List String → RawTree × List String
  | 0 => fun n vis => (RawTree.node n [], vis)
  | fuel + 1 => fun n vis =>
    let r := treeBuildStep (treeBuild nbrs fuel) (nbrs n) vis
    (RawTree.node n r.1, r.2)

/-- `transitiveCalleesTree(db, startId, maxDepth)` (the raw algorithm):
    `visited.add(startId); build(startId, 0)`. -/
def transitiveCalleesTreeAlg (db : DB) (startId : String) (maxDepth : Nat) : RawTree :=
  (treeBuild (immediateCalleesIds db) (maxDepth + 1) startId [startId]).1

/-- `transitiveCallersTree(db, startId, maxDepth)` (the raw algorithm). -/
def transitiveCallersTreeAlg (db : DB) (startId : String) (maxDepth : Nat) : RawTree :=
  (treeBuild (immediateCallersIds db) (maxDepth + 1) startId [startId]).1

/-- The structured tree node produced by `buildFilteredTree`
    (default options, so the optional expanded payload is omitted). -/
structure TreeNodeF where
  nodeId : String
  children : List TreeNodeF
deriving Repr

/-- `convert` applied to each child in order, dropping the filtered-out
    (`null`) results — the `.map(convert).filter(notNull)` pipeline. -/
def convertChildrenStep (rec : RawTree → Option TreeNodeF) :
    List RawTree → List TreeNodeF
  | [] => []
  | c :: cs =>
    match rec c with
    | none => convertChildrenStep rec cs
    | some t => t :: convertChildrenStep rec cs

/-- `buildFilteredTree.convert(n, depth)` with fuel `maxDepth - depth`:
    a node missing from the table is pruned (`filterNode` returns null);
    at `depth ≥ maxDepth` (fuel 0) children are cut. -/
def convertTree (db : DB) : Nat → RawTree → Option TreeNodeF
  | 0 => fun t =>
    match t with
    | .node i _ => if nodePresent db i then some ⟨i, []⟩ else none
  | fuel + 1 => fun t =>
    match t with
    | .node i cs =>
      if nodePresent db i then some ⟨i, convertChildrenStep (convertTree db fuel) cs⟩
      else none

/-- `buildFilteredTree(treeRoot, opts)` with `opts.maxDepth = maxDepth`:
    on a fully pruned tree the fallback root-only result is returned. -/
def buildFilteredTree (db : DB) (root : RawTree) (maxDepth : Nat) : TreeNodeF :=
  match convertTree db maxDepth root with
  | some t => t
  | none => ⟨root.rootId, []⟩

/-- `GraphAPIImpl.transitiveCalleesTree` with an explicit `maxDepth` and
    otherwise default options. -/
def transitiveCalleesTree (db : DB) (startId : String) (maxDepth : Nat) : TreeNodeF :=
  buildFilteredTree db (transitiveCalleesTreeAlg db startId maxDepth) maxDepth

/-- `GraphAPIImpl.transitiveCallersTree` with an explicit `maxDepth`. -/
def transitiveCallersTree (db : DB) (startId : String) (maxDepth : Nat) : TreeNodeF :=
  buildFilteredTree db (transitiveCallersTreeAlg db startId maxDepth) maxDepth

mutual
/-- All node ids appearing in a structured tree (root first, depth-first). -/
def TreeNodeF.idsT : TreeNodeF → List String
  | .mk i cs => i :: idsOfForest cs

/-- All node ids of a list of structured trees. -/
def idsOfForest : List TreeNodeF → List String
  | [] => []
  | t :: ts => t.idsT ++ idsOfForest ts
end

/-! ## All simple paths (`allPathsBetween`) and `allCallChains` -/

/-- The `for` loop of `dfs` over the neighbor list: a neighbor already on
    the path is skipped; otherwise recursion continues with the neighbor
    appended (`rec` is the recursion one level deeper). -/
def dfsStep (rec : String → List String → List (List String)) :
    List String → List String → List (List String)
  | [], _ => []
  | nid :: rest, path =>
    (if nid ∈ path then [] else rec nid (path ++ [nid])) ++ dfsStep rec rest path

/-- `dfs(curr, path)` with fuel `depthLimit + 2 - path.length`.  The checks
    mirror the source order: the length guard (`path.length > depthLimit`)
    precedes the target check, which precedes neighbor expansion.  The
    fuel-0 fallback is unreachable at that fuel (it would require
    `path.length = depthLimit + 2 > depthLimit`, already caught). -/
def dfsPaths (nbrs : String → List String) (targetId : String) (depthLimit : Nat) :
    Nat → String → List String → List (List String)
  | 0 => fun _ path => if depthLimit < path.length then [] else []
  | fuel + 1 => fun curr path =>
    if depthLimit < path.length then []
    else if curr == targetId then [path]
    else dfsStep (dfsPaths nbrs targetId depthLimit fuel) (nbrs curr) path

/-- `allPathsBetween(db, startId, targetId, depthLimit)`:
    `dfs(startId, [startId])`. -/
def allPathsBetween (db : DB) (startId targetId : String) (depthLimit : Nat) :
    List (List String) :=
  dfsPaths (immediateCalleesIds db) targetId depthLimit (depthLimit + 1) startId [startId]

/-- `GraphAPIImpl.allCallChains` raw paths:
    `allPathsAlg(...).slice(0, maxPaths)`. -/
def allCallChainsRaw (db : DB) (startId targetId : String)
    (depthLimit maxPaths : Nat) : List (List String) :=
  (allPathsBetween db startId targetId depthLimit).take maxPaths

/-! ## Hotspots (`computeHotspots` and `GraphAPIImpl.hotspots`) -/

/-- Distinct elements of a list in first-occurrence order — the key order
    of `GROUP BY` grouping (and of a JS `Set`/object-key insertion). -/
def firstOccs : List String → List String
  | [] => []
  | x :: xs => x :: (firstOccs xs).filter (fun y => !(y == x))

/-- `GROUP BY col` with `COUNT(*)`: one `(value, count)` row per distinct
    value, counts taken over the whole list. -/
def groupCounts (ids : List String) : List (String × Nat) :=
  (firstOccs ids).map (fun x => (x, ids.count x))

/-- Stable descending insertion by a numeric key: the element is placed
    after every element of greater or equal key.  A stable sort is the
    deterministic embedding of the JS stable `Array.sort` comparator
    `(a, b) => keyB - keyA` (and of the query's `ORDER BY cnt DESC`). -/
def insertDescBy {α : Type} (key : α → Nat) (a : α) : List α → List α
  | [] => [a]
  | b :: bs => if key a ≤ key b then b :: insertDescBy key a bs else a :: b :: bs

/-- Stable sort, descending by `key`. -/
def stableSortDescBy {α : Type} (key : α → Nat) (l : List α) : List α :=
  l.foldl (fun acc a => insertDescBy key a acc) []

/-- Count of all incoming edges of a node (every edge `type`). -/
def countIncoming (db : DB) (id : String) : Nat :=
  (db.edges.filter (fun e => e.to_id == id)).length

/-- Count of all outgoing edges of a node (every edge `type`). -/
def countOutgoing (db : DB) (id : String) : Nat :=
  (db.edges.filter (fun e => e.from_id == id)).length

/-- Modelled from the spec: the count of incoming `call` + `method_call`
    edges (the counts the spec claims the hotspot `in` field holds). -/
def countIncomingCalls (db : DB) (id : String) : Nat :=
  (db.edges.filter
      (fun e => e.to_id == id && (e.etype == "call" || e.etype == "method_call"))).length

/-- `computeHotspots(db, top)`: the two queries
    `SELECT to_id/from_id, COUNT(*) ... GROUP BY ... ORDER BY cnt DESC LIMIT top`. -/
def computeHotspots (db : DB) (top : Nat) : List (String × Nat) × List (String × Nat) :=
  ((stableSortDescBy Prod.snd (groupCounts (db.edges.map (·.to_id)))).take top,
   (stableSortDescBy Prod.snd (groupCounts (db.edges.map (·.from_id)))).take top)

/-- A hotspot entry (`nodeId`, `in`, `out`, `score`; the JS field names
    `in`/`out` are Lean keywords, embedded as `inC`/`outC`). -/
structure HEntry where
  nodeId : String
  inC : Nat
  outC : Nat
  score : Nat
deriving DecidableEq, Repr

/-- `GraphAPIImpl.hotspots` with default options: build `incomingMap` /
    `outgoingMap` from the truncated lists, one entry per key of either
    map (insertion order), skip keys missing from the node table, score
    `in * out`, stable-sort by score descending, truncate to `top`. -/
def hotspots (db : DB) (top : Nat) : List HEntry :=
  let raw := computeHotspots db top
  let keys := firstOccs (raw.1.map (·.1) ++ raw.2.map (·.1))
  let entries := keys.filterMap (fun key =>
    if nodePresent db key then
      let inC := ((raw.1.find? (fun r => r.1 == key)).map (·.2)).getD 0
      let outC := ((raw.2.find? (fun r => r.1 == key)).map (·.2)).getD 0
      some ⟨key, inC, outC, inC * outC⟩
    else none)
  (stableSortDescBy HEntry.score entries).take top

/-! ## Remaining simple queries (`getNode`, direct neighbors) -/

/-- `NodeStore.get` / `GraphAPIImpl.getNode`: first row with the id, or
    none. -/
def getNode (db : DB) (id : String) : Option GNode :=
  db.nodes.find? (fun n => n.id == id)

/-- `GraphAPIImpl.getCallers` raw ids: incoming `call`/`method_call`
    edges, then `buildFlatResult` keeps the ids present in the table. -/
def getCallersRaw (db : DB) (nodeId : String) : List String :=
  (((db.edges.filter
        (fun e => e.to_id == nodeId && (e.etype == "call" || e.etype == "method_call"))).map
      (·.from_id)).filter (nodePresent db))

/-- `GraphAPIImpl.getCallees` raw ids. -/
def getCalleesRaw (db : DB) (nodeId : String) : List String :=
  (((db.edges.filter
        (fun e => e.from_id == nodeId && (e.etype == "call" || e.etype == "method_call"))).map
      (·.to_id)).filter (nodePresent db))

/-- `GraphAPIImpl.getFunctionsInFile` raw ids: outgoing `contains` edges
    joined against the `nodes` table, then `buildFlatResult`. -/
def getFunctionsInFileRaw (db : DB) (nodeId : String) : List String :=
  (((db.edges.filter (fun e => e.from_id == nodeId && e.etype == "contains")).map
      (·.to_id)).filter (nodePresent db))

/-! ## Graph builder (`buildGraph.ts`)

The IR input types and the builder are embedded field by field.  JS object
metadata becomes a record of optional fields (absent field = `none`); the
node/edge `Map`s keyed by id and by `(from, to, type)` become lists with
first-insertion-wins membership tests. -/

/-- A source position `{ line, column }`. -/
structure Pos where
  line : Nat
  column : Nat
deriving DecidableEq, Repr

/-- `IRClass`. -/
structure IRClass where
  id : String
  name : String
  file : String
  startP : Pos
  endP : Pos
deriving DecidableEq, Repr

/-- `IRMethod`. -/
structure IRMethod where
  id : String
  name : String
  className : String
  classId : String
  file : String
  startP : Pos
  endP : Pos
deriving DecidableEq, Repr

/-- `IRFunction` (`name` may be null for anonymous functions). -/
structure IRFunction where
  id : String
  name : Option String
  file : String
  startP : Pos
  endP : Pos
deriving DecidableEq, Repr

/-- `IRCall` (fields `from`/`to` are Lean keywords, embedded as
    `fromId`/`toId`; `type` as `ctype`).  Optional booleans carry their JS
    truthiness through `Option.getD false`. -/
structure IRCall where
  fromId : String
  toId : String
  ctype : Option String
  calleeName : Option String
  receiver : Option String
  method : Option String
  resolved : Bool
  external : Bool
  moduleName : Option String
deriving DecidableEq, Repr

/-- The `IR` input of the builder. -/
structure IR where
  functions : List IRFunction
  classes : List IRClass
  methods : List IRMethod
  calls : List IRCall
  files : List String
deriving DecidableEq, Repr

/-- Node metadata as a record of the optional fields the builder writes. -/
structure BMeta where
  path : Option String := none
  file : Option String := none
  name : Option String := none
  className : Option String := none
  methodName : Option String := none
  startP : Option Pos := none
  endP : Option Pos := none
  placeholderId : Option String := none
  calleeName : Option String := none
  line : Option Nat := none
  receiver : Option String := none
  method : Option String := none
  external : Option Bool := none
  moduleName : Option String := none
  isFramework : Option Bool := none
deriving DecidableEq, Repr

/-- A built graph node (`type` embedded as `ntype`). -/
structure BNode where
  id : String
  ntype : String
  label : String
  meta : BMeta
deriving DecidableEq, Repr

/-- Call-edge metadata written by the builder. -/
structure BEdgeMeta where
  calleeName : Option String := none
  resolved : Option Bool := none
  external : Option Bool := none
  moduleName : Option String := none
  receiver : Option String := none
  method : Option String := none
  isFramework : Option Bool := none
deriving DecidableEq, Repr

/-- A built graph edge. -/
structure BEdge where
  fromId : String
  toId : String
  etype : String
  meta : Option BEdgeMeta
deriving DecidableEq, Repr

/-- Builder state: the node map and edge map, in insertion order. -/
structure BState where
  nodes : List BNode
  edges : List BEdge
deriving DecidableEq, Repr

/-- `addNode`: insert only when no node with the id exists. -/
def addBNode (st : BState) (n : BNode) : BState :=
  if st.nodes.any (fun m => m.id == n.id) then st else { st with nodes := st.nodes ++ [n] }

/-- `addEdge`: keyed by `(from, to, type)`, first insertion wins. -/
def addBEdge (st : BState) (e : BEdge) : BState :=
  if st.edges.any (fun f => f.fromId == e.fromId && f.toId == e.toId && f.etype == e.etype) then
    st
  else { st with edges := st.edges ++ [e] }

/-- Whether a node id is already present in the builder state
    (`nodes.has(id)`). -/
def hasBNode (st : BState) (id : String) : Bool :=
  st.nodes.any (fun m => m.id == id)

/-- Step 0: one `class` node per IR class plus a `file -> class`
    containment edge when the file node already exists. -/
def buildStepClasses (ir : IR) (st : BState) : BState :=
  ir.classes.foldl
    (fun st cls =>
      let st := addBNode st
        ⟨cls.id, "class", cls.name,
          { file := some cls.file, name := some cls.name,
            startP := some cls.startP, endP := some cls.endP }⟩
      let fileId := "file:" ++ cls.file
      if hasBNode st fileId then addBEdge st ⟨fileId, cls.id, "contains", none⟩ else st)
    st

/-- Step 0b: one `method` node per IR method plus `class -> method`
    containment when the class node exists. -/
def buildStepMethods (ir : IR) (st : BState) : BState :=
  ir.methods.foldl
    (fun st m =>
      let st := addBNode st
        ⟨m.id, "method", m.className ++ "." ++ m.name,
          { file := some m.file, className := some m.className,
            methodName := some m.name, startP := some m.startP, endP := some m.endP }⟩
      if hasBNode st m.classId then addBEdge st ⟨m.classId, m.id, "contains", none⟩ else st)
    st

/-- Step 1: one `file` node per file; then ensure every class of that file
    has a containment edge from it (the check ignores the edge type, as in
    the source's `.some(e => e.from === id && e.to === cls.id)`). -/
def buildStepFiles (ir : IR) (st : BState) : BState :=
  ir.files.foldl
    (fun st file =>
      let id := "file:" ++ file
      let st := addBNode st ⟨id, "file", file, { path := some file }⟩
      ir.classes.foldl
        (fun st cls =>
          if cls.file == file
              && !(st.edges.any (fun e => e.fromId == id && e.toId == cls.id)) then
            addBEdge st ⟨id, cls.id, "contains", none⟩
          else st)
        st)
    st

/-- Step 2: one `function` node per IR function plus `file -> function`
    containment, creating the file node on demand. -/
def buildStepFunctions (ir : IR) (st : BState) : BState :=
  ir.functions.foldl
    (fun st fn =>
      let st := addBNode st
        ⟨fn.id, "function", fn.name.getD fn.id,
          { file := some fn.file, name := fn.name,
            startP := some fn.startP, endP := some fn.endP }⟩
      let fileId := "file:" ++ fn.file
      if hasBNode st fileId then addBEdge st ⟨fileId, fn.id, "contains", none⟩
      else
        let st := addBNode st ⟨fileId, "file", fn.file, { path := some fn.file }⟩
        addBEdge st ⟨fileId, fn.id, "contains", none⟩)
    st

/-- The hard-coded framework receiver set. -/
def frameworkReceivers : List String :=
  ["res", "req", "app", "next", "router", "express"]

/-- The hard-coded framework method set. -/
def frameworkMethods : List String :=
  ["json", "send", "status", "render", "redirect", "cookie", "clearCookie", "download",
   "end", "format", "get", "set", "type", "links", "location", "vary", "append",
   "attachment", "sendFile", "sendStatus", "jsonp", "use", "post", "put", "delete",
   "patch", "all", "route", "param", "listen"]

/-- The framework tagging of one call. -/
def isFrameworkCall (c : IRCall) : Bool :=
  (match c.receiver with
   | some r => frameworkReceivers.contains r
   | none => false)
  ||
  (c.ctype == some "method_call"
    && (match c.method with
        | some mn => frameworkMethods.contains mn
        | none => false)
    && (match c.receiver with
        | some r => r == "res" || r == "req" || r == "app" || r == "router"
        | none => false))

/-- JS truthiness of `call.moduleName` (absent or empty string is falsy). -/
def callHasModule (c : IRCall) : Bool :=
  match c.moduleName with
  | some m => !(m == "")
  | none => false

/-- `Number(parts[3]) || undefined` on a decimal string: zero or
    non-numeric yields `undefined`. -/
def lineOfPart (s : String) : Option Nat :=
  match s.toNat? with
  | some 0 => none
  | some n => some n
  | none => none

/-- Metadata decoded from a placeholder id `placeholder::<file>::<callee>::<line>`
    (only when the split yields at least four parts), plus
    receiver/method. -/
def placeholderMetaParts (placeholderId : String) : BMeta :=
  let parts := placeholderId.splitOn "::"
  if 4 ≤ parts.length then
    { placeholderId := some placeholderId,
      file := some (parts.getD 1 ""), calleeName := some (parts.getD 2 ""),
      line := lineOfPart (parts.getD 3 "") }
  else { placeholderId := some placeholderId }

/-- The placeholder node label: `receiver.method()` when both are truthy,
    else `calleeName()` when the decoded callee name is truthy, else the
    raw id. -/
def placeholderLabel (meta : BMeta) (c : IRCall) (placeholderId : String) : String :=
  let base :=
    match meta.calleeName with
    | some cn => if cn == "" then placeholderId else cn ++ "()"
    | none => placeholderId
  match c.receiver, c.method with
  | some r, some mn => if r == "" || mn == "" then base else r ++ "." ++ mn ++ "()"
  | _, _ => base

/-- `s.endsWith(suffix)`, computed on the character list. -/
def strEndsWith (s suffix : String) : Bool :=
  s.toList.reverse.take suffix.toList.length == suffix.toList.reverse

/-- `s.dropRight n` (drop the last `n` characters), on the character
    list; `from.replace(/:TOPLEVEL$/, "")` is this with `n = 9` once the
    suffix test has succeeded. -/
def strDropRight (s : String) (n : Nat) : String :=
  String.mk (s.toList.take (s.toList.length - n))

/-- `s.startsWith(pre)`, computed on the character list. -/
def strStartsWith (s pre : String) : Bool :=
  s.toList.take pre.toList.length == pre.toList

/-- The caller node id: `:TOPLEVEL` callers map to the file node. -/
def fromNodeIdOf (c : IRCall) : String :=
  if strEndsWith c.fromId ":TOPLEVEL" then "file:" ++ strDropRight c.fromId 9 else c.fromId

/-- Ensure the caller node exists: create the file node for a
    `:TOPLEVEL` caller, or a defensive placeholder for a missing
    function caller. -/
def ensureCaller (st : BState) (c : IRCall) : BState :=
  if strEndsWith c.fromId ":TOPLEVEL" then
    if hasBNode st (fromNodeIdOf c) then st
    else
      addBNode st
        ⟨fromNodeIdOf c, "file", strDropRight c.fromId 9,
          { path := some (strDropRight c.fromId 9) }⟩
  else if hasBNode st (fromNodeIdOf c) then st
  else
    addBNode st
      ⟨fromNodeIdOf c, "placeholder", fromNodeIdOf c,
        { placeholderId := some (fromNodeIdOf c), calleeName := none, file := some "unknown" }⟩

/-- The edge kind of a call. -/
def callTypeOf (c : IRCall) : String :=
  if c.ctype == some "method_call" then "method_call" else "call"

/-- Case A: the call is resolved to an internal target. -/
def caseResolved (st : BState) (c : IRCall) (fw : Bool) : BState :=
  let st :=
    if hasBNode st c.toId then st
    else
      addBNode st
        ⟨c.toId, "placeholder", c.toId,
          { placeholderId := some c.toId, calleeName := none, file := some "unknown" }⟩
  addBEdge st
    ⟨fromNodeIdOf c, c.toId, callTypeOf c,
      some { calleeName := some (c.calleeName.getD ""), resolved := some true,
             receiver := c.receiver, method := c.method,
             isFramework := if fw then some true else none }⟩

/-- Case B: the call targets an external module method. -/
def caseExternal (st : BState) (c : IRCall) (fw : Bool) : BState :=
  let st :=
    if hasBNode st c.toId then st
    else
      let meta0 := placeholderMetaParts c.toId
      let meta :=
        { meta0 with external := some true, moduleName := c.moduleName,
                     isFramework := some fw,
                     receiver := c.receiver, method := c.method }
      addBNode st ⟨c.toId, "placeholder", placeholderLabel meta0 c c.toId, meta⟩
  let st := addBEdge st
    ⟨fromNodeIdOf c, c.toId, callTypeOf c,
      some { calleeName := some (c.calleeName.getD ""), external := some true,
             moduleName := c.moduleName, receiver := c.receiver, method := c.method,
             isFramework := if fw then some true else none }⟩
  let extId := "external:" ++ c.moduleName.getD ""
  if hasBNode st extId then st
  else
    addBNode st
      ⟨extId, "external", c.moduleName.getD "",
        { moduleName := c.moduleName, isFramework := some fw }⟩

/-- Case C: the call keeps an unresolved internal placeholder target. -/
def caseUnresolved (st : BState) (c : IRCall) (fw : Bool) : BState :=
  let st :=
    if hasBNode st c.toId then st
    else
      let meta0 := placeholderMetaParts c.toId
      let meta :=
        { meta0 with receiver := c.receiver, method := c.method,
                     isFramework := if fw then some true else none }
      addBNode st ⟨c.toId, "placeholder", placeholderLabel meta0 c c.toId, meta⟩
  addBEdge st
    ⟨fromNodeIdOf c, c.toId, callTypeOf c,
      some { calleeName := some (c.calleeName.getD ""), resolved := some false,
             receiver := c.receiver, method := c.method,
             isFramework := if fw then some true else none }⟩

/-- Step 3 body for one IR call: rewrite `:TOPLEVEL` callers to the file
    node, ensure the caller node, then case A (resolved internal), case B
    (external with module name) or case C (unresolved placeholder). -/
def buildProcessCall (st : BState) (c : IRCall) : BState :=
  let st := ensureCaller st c
  let fw := isFrameworkCall c
  if c.resolved && !c.external then caseResolved st c fw
  else if c.external && callHasModule c then caseExternal st c fw
  else caseUnresolved st c fw

/-- The builder state after steps 0–2 (before calls are processed). -/
def buildBase (ir : IR) : BState :=
  buildStepFunctions ir (buildStepFiles ir (buildStepMethods ir (buildStepClasses ir ⟨[], []⟩)))

/-- `buildGraph(ir)`: steps 0–2 then the call loop. -/
def buildGraph (ir : IR) : BState :=
  ir.calls.foldl buildProcessCall (buildBase ir)

/-! ## Parser project aggregation (`parseProject`) and Pass 1.5

The per-file AST walk is the external parser's concern; its output record
`FileParseData` is the embedding's input.  The JS `Map`s `imports`,
`exports`, `instanceMapping` become association lists with unique keys
(first-match lookup).  `tryResolveImportFile` touches the filesystem, so
it is a parameter `fileResolve : String → String → Option String` that
returns the normalized project-relative path of the resolved file, or
none (covering both external sources and unresolved relative paths). -/

/-- A parsed function (`FunctionNode`). -/
structure PFn where
  id : String
  name : Option String
  file : String
deriving DecidableEq, Repr

/-- A parsed method (`MethodNode`, the resolution-relevant fields). -/
structure PMethod where
  id : String
  name : String
  className : String
  file : String
deriving DecidableEq, Repr

/-- A recorded call edge (`CallEdge`; `from`/`to` as `fromId`/`toId`). -/
structure PCall where
  fromId : String
  toId : String
  ctype : Option String
  calleeName : Option String
  receiver : Option String
  method : Option String
  resolved : Bool
  external : Bool
  moduleName : Option String
deriving DecidableEq, Repr

/-- One import entry: local name ↦ (imported name, source). -/
structure PImport where
  importedName : String
  source : String
deriving DecidableEq, Repr

/-- `FileParseData`. -/
structure PFile where
  file : String
  functions : List PFn
  methods : List PMethod
  calls : List PCall
  instanceMapping : List (String × String)
  imports : List (String × PImport)
  exports : List (String × List String)
deriving DecidableEq, Repr

/-- Pass 1.5, inner loop body: the ids pushed for one export entry value —
    for a `__LOCAL__:<n>` sentinel, the id of every function named `n` in
    file order; otherwise the value itself. -/
def sentinelIds (functions : List PFn) (localName : String) : List String :=
  functions.foldl (fun acc fn => if fn.name == some localName then acc ++ [fn.id] else acc) []

/-- `v.startsWith("__LOCAL__:")`, computed on the character list. -/
def isLocalSentinel (v : String) : Bool :=
  v.toList.take 10 == "__LOCAL__:".toList

/-- `v.slice("__LOCAL__:".length)`: the local name behind the sentinel. -/
def sentinelName (v : String) : String :=
  String.mk (v.toList.drop 10)

/-- Pass 1.5, loop over one export entry's id list. -/
def resolveEntryList (functions : List PFn) : List String → List String
  | [] => []
  | v :: vs =>
    (if isLocalSentinel v then sentinelIds functions (sentinelName v) else [v])
      ++ resolveEntryList functions vs

/-- Pass 1.5: rewrite every export entry of a file. -/
def resolveLocalExports (functions : List PFn) (exports : List (String × List String)) :
    List (String × List String) :=
  exports.map (fun kv => (kv.1, resolveEntryList functions kv.2))

/-- The global function registry: under each name, the functions defined
    with that local name followed by the functions reachable from an
    export entry of that name, per file in order (`parseProject`,
    `functionRegistry` construction). -/
def functionRegistry (files : List PFile) (name : String) : List PFn :=
  files.flatMap (fun pd =>
    pd.functions.filter (fun fn => fn.name == some name)
      ++ (((pd.exports.lookup name).getD []).filterMap
            (fun id => pd.functions.find? (fun fn => fn.id == id))))

/-- The method registry entries under a key: a method is registered both
    under `"Class.method"` and under its bare name. -/
def methodRegistry (files : List PFile) (key : String) : List PMethod :=
  files.flatMap (fun pd =>
    pd.methods.filter (fun m => m.className ++ "." ++ m.name == key || m.name == key))

/-- The merged global instance map: later files overwrite earlier ones
    (`Map.set` semantics). -/
def globalInstanceMapping (files : List PFile) (varName : String) : Option String :=
  ((files.flatMap (fun pd => pd.instanceMapping)).reverse).lookup varName

/-- JS `String.includes`: substring test. -/
def substrB (needle hay : String) : Bool :=
  (List.range (hay.length + 1)).any
    (fun i => (hay.toList.drop i).take needle.length == needle.toList)

/-- Rule 0, `this`-receiver fallback: scan the file's methods in order;
    the first whose class name occurs in the caller id and whose
    `"Class.method"` registry list is non-empty resolves to that list's
    first candidate. -/
def thisResolve (files : List PFile) (pd : PFile) (fromId methodName : String) :
    List PMethod → Option String
  | [] => none
  | m :: rest =>
    if substrB m.className fromId then
      match methodRegistry files (m.className ++ "." ++ methodName) with
      | [] => thisResolve files pd fromId methodName rest
      | c :: _ => some c.id
    else thisResolve files pd fromId methodName rest

/-- Rule 0, instance-map resolution: receiver ↦ class via the local then
    global instance map, then `"Class.method"` candidates with the
    same-file preference on ties. -/
def instanceResolve (files : List PFile) (pd : PFile) (receiver methodName : String) :
    Option String :=
  let className :=
    match pd.instanceMapping.lookup receiver with
    | some c => some c
    | none => globalInstanceMapping files receiver
  match className with
  | none => none
  | some cls =>
    match methodRegistry files (cls ++ "." ++ methodName) with
    | [] => none
    | [c] => some c.id
    | c :: cs =>
      match (c :: cs).find? (fun m => m.file == pd.file) with
      | some m => some m.id
      | none => some c.id

/-- Placeholder normalization `placeholderTo.split(path.sep).join("/")`:
    with the POSIX separator `/` this is the identity. -/
def normalizeSep (s : String) : String := s

/-- Pass 2 resolution of a single recorded call (the body of the
    `for (const call of pd.calls)` loop), returning the pushed call. -/
def resolveCall (files : List PFile) (fileResolve : String → String → Option String)
    (pd : PFile) (call : PCall) : PCall :=
  match call.calleeName with
  | none => call
  | some name =>
    -- Rule 0: method call via the instance maps, then the `this` fallback
    let rid0 : Option String :=
      if call.ctype == some "method_call" then
        match call.receiver, call.method with
        | some r, some mn =>
          match instanceResolve files pd r mn with
          | some i => some i
          | none =>
            if r == "this" then thisResolve files pd call.fromId mn pd.methods else none
        | _, _ => none
      else none
    match rid0 with
    | some i =>
      { call with toId := i, resolved := true, external := false, moduleName := none }
    | none =>
      -- Rule 0b: receiver imported from an external source
      let ext0 : Option String :=
        if call.ctype == some "method_call" then
          match call.receiver with
          | some r =>
            match pd.imports.lookup r with
            | some imp =>
              if !strStartsWith imp.source "." && !strStartsWith imp.source "/" then
                some imp.source
              else none
            | none => none
          | none => none
        else none
      match ext0 with
      | some src => { call with resolved := false, external := true, moduleName := some src }
      | none =>
        -- Rule 1: resolution via the import of the callee name
        let viaImport : Option String × Bool × Option String :=
          match pd.imports.lookup name with
          | none => (none, false, none)
          | some imp =>
            match fileResolve pd.file imp.source with
            | none => (none, true, some imp.source)
            | some norm =>
              match files.find? (fun q => q.file == norm) with
              | none => (none, false, none)
              | some targetPd =>
                if imp.importedName == "*" then (none, false, none)
                else if imp.importedName == "default" then
                  match (targetPd.exports.lookup "default").getD [] with
                  | e :: _ => (some e, false, none)
                  | [] =>
                    match targetPd.functions.find? (fun f => f.name == some "default") with
                    | some f => (some f.id, false, none)
                    | none => (none, false, none)
                else
                  match targetPd.exports.lookup imp.importedName with
                  | some (e :: _) => (some e, false, none)
                  | _ =>
                    match targetPd.functions.find?
                        (fun f => f.name == some imp.importedName) with
                    | some f => (some f.id, false, none)
                    | none => (none, false, none)
        -- Rule 2: local function of the same file
        let rid2 : Option String :=
          match viaImport.1 with
          | some i => some i
          | none =>
            match pd.functions.find? (fun f => f.name == some name) with
            | some f => some f.id
            | none => none
        -- Rule 3: global unique registry entry
        let rid3 : Option String :=
          match rid2 with
          | some i => some i
          | none =>
            match functionRegistry files name with
            | [f] => some f.id
            | _ => none
        match rid3 with
        | some i =>
          { call with toId := i, resolved := true, external := false, moduleName := none }
        | none =>
          if viaImport.2.1 then
            { call with resolved := false, external := true, moduleName := viaImport.2.2 }
          else
            { call with toId := normalizeSep call.toId, resolved := false,
                        external := false, moduleName := none }

/-! ## Reachability within a bounded number of edges

`ReachIn nbrs s k x` holds when some neighbor chain of length at most `k`
leads from `s` to `x`.  This is the semantic yardstick for the traversal
theorems: "depth counts edges". -/

/-- Reachability from `s` in at most `k` neighbor steps. -/
inductive ReachIn (nbrs : String → List String) (s : String) : Nat → String → Prop
  | zero : ReachIn nbrs s 0 s
  | succ {k : Nat} {x y : String} :
      ReachIn nbrs s k x → y ∈ nbrs x → ReachIn nbrs s (k + 1) y
  | mono {k : Nat} {x : String} : ReachIn nbrs s k x → ReachIn nbrs s (k + 1) x

theorem ReachIn.of_le {nbrs : String → List String} {s : String} {k k' : Nat} {x : String}
    (h : ReachIn nbrs s k x) (hle : k ≤ k') : ReachIn nbrs s k' x := by
  induction hle with
  | refl => exact h
  | step _ ih => exact ih.mono

theorem reachIn_zero_iff {nbrs : String → List String} {s x : String} :
    ReachIn nbrs s 0 x ↔ x = s := by
  constructor
  · intro h; cases h; rfl
  · rintro rfl; exact .zero

/-! ## The BFS loop invariant and its master lemma -/

/-- Depth of the queue front; `d + 1` for the empty queue (so that
    `k < frontD d []` covers every depth the loop can still reach). -/
def frontD (d : Nat) (qs : List (String × Nat)) : Nat :=
  match qs with
  | [] => d + 1
  | p :: _ => p.2

/-- The loop invariant of `bfsAux` relating queue, visited set and result:
    visited is the start plus the result (`vis_eq`), the result is
    duplicate-free and sound (`res_sound`: within depth `d` and at least
    one step), queue entries carry their discovery depth which is minimal
    (`q_min`), queue depths are sorted in a band of width one and bounded
    by `d`, every node reachable strictly below the front depth is
    already visited (`front_complete`), and every visited node that has
    left the queue and is reachable below `d` has all its neighbors
    visited (`expanded`). -/
structure BfsInv (nbrs : String → List String) (s : String) (d : Nat)
    (qs : List (String × Nat)) (vis res : List String) : Prop where
  vis_eq : ∀ x, x ∈ vis ↔ x = s ∨ x ∈ res
  start_not_res : s ∉ res
  res_nodup : res.Nodup
  res_sound : ∀ x ∈ res, ∃ k, 1 ≤ k ∧ k ≤ d ∧ ReachIn nbrs s k x
  q_reach : ∀ p ∈ qs, ReachIn nbrs s p.2 p.1
  q_min : ∀ p ∈ qs, ∀ k, ReachIn nbrs s k p.1 → p.2 ≤ k
  q_sorted : List.Sorted (· ≤ ·) (qs.map Prod.snd)
  q_band : ∀ p ∈ qs, p.2 ≤ frontD d qs + 1
  q_le_d : ∀ p ∈ qs, p.2 ≤ d
  front_complete : ∀ u k, ReachIn nbrs s k u → k ≤ d → k < frontD d qs → u ∈ vis
  expanded : ∀ x ∈ vis, (∀ dx, (x, dx) ∉ qs) →
      ∀ k, ReachIn nbrs s k x → k < d → ∀ y ∈ nbrs x, y ∈ vis

theorem BfsInv.start_mem_vis {nbrs : String → List String} {s : String} {d : Nat}
    {qs : List (String × Nat)} {vis res : List String}
    (inv : BfsInv nbrs s d qs vis res) : s ∈ vis :=
  (inv.vis_eq s).mpr (Or.inl rfl)

/-- If the whole visited set is closed under neighbor expansion below
    depth `d`, then it contains everything reachable within `d` steps. -/
theorem reach_complete_of_closed {nbrs : String → List String} {s : String} {d : Nat}
    {vis : List String} (hs : s ∈ vis)
    (hclosed : ∀ x ∈ vis, ∀ k, ReachIn nbrs s k x → k < d → ∀ y ∈ nbrs x, y ∈ vis) :
    ∀ k u, ReachIn nbrs s k u → k ≤ d → u ∈ vis := by
  intro k u h
  induction h with
  | zero => intro _; exact hs
  | succ hp hy ih =>
    intro hkd
    have hk : _ ≤ d := Nat.le_of_succ_le hkd
    exact hclosed _ (ih hk) _ hp (Nat.lt_of_succ_le hkd) _ hy
  | mono hp ih =>
    intro hkd
    exact ih (Nat.le_of_succ_le hkd)

/-- At a state whose queue front has depth `δ ≤ d`, every node reachable
    within `δ` steps is already visited. -/
theorem layer_complete {nbrs : String → List String} {s : String} {d δ : Nat} {y : String}
    {rest : List (String × Nat)} {vis res : List String}
    (inv : BfsInv nbrs s d ((y, δ) :: rest) vis res) (hδd : δ ≤ d) :
    ∀ u, ReachIn nbrs s δ u → u ∈ vis := by
  intro u h
  cases h with
  | zero => exact inv.start_mem_vis
  | @succ k p u hp hu =>
    -- the predecessor lies strictly below the front, hence is visited,
    -- has no queue entry, and has been expanded
    have hpv : p ∈ vis :=
      inv.front_complete p k hp (Nat.le_of_succ_le hδd) (Nat.lt_succ_self k)
    have hpq : ∀ dx, (p, dx) ∉ ((y, k + 1) :: rest) := by
      intro dx hmem
      have hmin : dx ≤ k := inv.q_min (p, dx) hmem k hp
      rcases List.mem_cons.mp hmem with hhead | hrest
      · have hdx : dx = k + 1 := congrArg Prod.snd hhead
        omega
      · have hfront : k + 1 ≤ dx := by
          have hsorted := inv.q_sorted
          rw [List.map_cons, List.sorted_cons] at hsorted
          exact hsorted.1 dx (List.mem_map.mpr ⟨(p, dx), hrest, rfl⟩)
        omega
    exact inv.expanded p hpv hpq k hp (Nat.lt_of_succ_le hδd) u hu
  | @mono k u hp =>
    exact inv.front_complete u k hp (Nat.le_of_succ_le hδd) (Nat.lt_succ_self k)

/-- Characterization of the inner neighbor loop: it appends the fresh
    neighbors (first occurrences not yet visited, in order) to the queue
    at depth `δ + 1`, conses them onto the visited list and appends them
    to the result. -/
theorem bfsFold_spec (δ : Nat) (ns : List String) (q0 : List (String × Nat))
    (vis0 res0 : List String) :
    ∃ new : List String,
      ns.foldl (bfsFold δ) (q0, vis0, res0)
          = (q0 ++ new.map (fun x => (x, δ + 1)), new.reverse ++ vis0, res0 ++ new)
        ∧ new.Nodup ∧ (∀ x, x ∈ new ↔ x ∈ ns ∧ x ∉ vis0) := by
  induction ns generalizing q0 vis0 res0 with
  | nil => exact ⟨[], by simp, List.nodup_nil, by simp⟩
  | cons a ns ih =>
    by_cases ha : a ∈ vis0
    · have hstep : bfsFold δ (q0, vis0, res0) a = (q0, vis0, res0) := by
        simp [bfsFold, ha]
      obtain ⟨new, heq, hnd, hmem⟩ := ih q0 vis0 res0
      refine ⟨new, ?_, hnd, ?_⟩
      · simpa [List.foldl_cons, hstep] using heq
      · intro x
        rw [hmem x]
        constructor
        · rintro ⟨hx, hv⟩; exact ⟨List.mem_cons_of_mem a hx, hv⟩
        · rintro ⟨hx, hv⟩
          rcases List.mem_cons.mp hx with rfl | hx
          · exact absurd ha hv
          · exact ⟨hx, hv⟩
    · have hstep : bfsFold δ (q0, vis0, res0) a
          = (q0 ++ [(a, δ + 1)], a :: vis0, res0 ++ [a]) := by
        simp [bfsFold, ha]
      obtain ⟨new, heq, hnd, hmem⟩ := ih (q0 ++ [(a, δ + 1)]) (a :: vis0) (res0 ++ [a])
      have hanew : a ∉ new := fun h => ((hmem a).mp h).2 (List.mem_cons_self a vis0)
      refine ⟨a :: new, ?_, hnd.cons hanew, ?_⟩
      · rw [List.foldl_cons, hstep, heq]
        refine congrArg₂ _ ?_ (congrArg₂ _ ?_ ?_) <;> simp
      · intro x
        rw [List.mem_cons, hmem x]
        constructor
        · rintro (hxa | ⟨hx, hv⟩)
          · rw [hxa]; exact ⟨List.mem_cons_self a ns, ha⟩
          · exact ⟨List.mem_cons_of_mem a hx,
              fun hc => hv (List.mem_cons_of_mem a hc)⟩
        · rintro ⟨hx, hv⟩
          rcases List.mem_cons.mp hx with hxa | hx
          · exact Or.inl hxa
          · by_cases hxa : x = a
            · exact Or.inl hxa
            · exact Or.inr ⟨hx, fun hc => by
                rcases List.mem_cons.mp hc with h | h
                · exact hxa h
                · exact hv h⟩

/-- Preservation of the invariant when the popped front has reached the
    depth bound (`depth >= maxDepth`, the `continue` branch). -/
theorem bfsInv_skip {nbrs : String → List String} {s : String} {d δ : Nat} {y : String}
    {rest : List (String × Nat)} {vis res : List String}
    (inv : BfsInv nbrs s d ((y, δ) :: rest) vis res) (hd : d ≤ δ) :
    BfsInv nbrs s d rest vis res := by
  have hδd : δ ≤ d := inv.q_le_d (y, δ) (List.mem_cons_self _ _)
  have hδ : δ = d := Nat.le_antisymm hδd hd
  have hrest_d : ∀ p ∈ rest, p.2 = d := by
    intro p hp
    have h1 : δ ≤ p.2 := by
      have hsorted := inv.q_sorted
      rw [List.map_cons, List.sorted_cons] at hsorted
      exact hsorted.1 p.2 (List.mem_map.mpr ⟨p, hp, rfl⟩)
    have h2 : p.2 ≤ d := inv.q_le_d p (List.mem_cons_of_mem _ hp)
    omega
  refine ⟨inv.vis_eq, inv.start_not_res, inv.res_nodup, inv.res_sound,
    fun p hp => inv.q_reach p (List.mem_cons_of_mem _ hp),
    fun p hp => inv.q_min p (List.mem_cons_of_mem _ hp),
    ?_, ?_, fun p hp => inv.q_le_d p (List.mem_cons_of_mem _ hp), ?_, ?_⟩
  · have hsorted := inv.q_sorted
    rw [List.map_cons, List.sorted_cons] at hsorted
    exact hsorted.2
  · intro p hp
    cases rest with
    | nil => cases hp
    | cons r rs =>
      have h1 : p.2 = d := hrest_d p hp
      have h2 : r.2 = d := hrest_d r (List.mem_cons_self _ _)
      simp only [frontD]
      omega
  · intro u k hreach hkd hkfront
    cases rest with
    | nil =>
      -- the queue is drained: depths up to d are all covered
      rcases Nat.lt_or_ge k d with hlt | hge
      · exact inv.front_complete u k hreach hkd (by simp [frontD]; omega)
      · have hk : k = d := Nat.le_antisymm hkd hge
        subst hk
        exact layer_complete inv hδd u (hδ ▸ hreach)
    | cons r rs =>
      have h2 : r.2 = d := hrest_d r (List.mem_cons_self _ _)
      have hfront : frontD d (r :: rs) = d := by simp [frontD, h2]
      exact inv.front_complete u k hreach hkd
        (by simp only [frontD]; omega)
  · intro x hx hxq k hreach hkd yy hyy
    have hxq' : ∀ dx, (x, dx) ∉ ((y, δ) :: rest) := by
      intro dx hmem
      rcases List.mem_cons.mp hmem with hhead | hrest
      · have hx1 : x = y := congrArg Prod.fst hhead
        have hx2 : dx = δ := congrArg Prod.snd hhead
        -- the popped entry's minimality contradicts reachability below d
        have := inv.q_min (y, δ) (List.mem_cons_self _ _) k (hx1 ▸ hreach)
        omega
      · exact hxq dx hrest
    exact inv.expanded x hx hxq' k hreach hkd yy hyy

/-- A constant-valued map is sorted. -/
theorem sorted_map_const {α : Type} (l : List α) (c : Nat) :
    List.Sorted (· ≤ ·) (l.map (fun _ => c)) := by
  induction l with
  | nil => simp
  | cons a l ih =>
    rw [List.map_cons, List.sorted_cons]
    exact ⟨fun b hb => by
      rcases List.mem_map.mp hb with ⟨_, _, rfl⟩; exact Nat.le_refl c, ih⟩

/-- Preservation of the invariant across an expansion step: the front
    `(y, δ)` with `δ < d` is popped and the fresh neighbors `new` are
    enqueued at depth `δ + 1`, visited, and appended to the result. -/
theorem bfsInv_expand {nbrs : String → List String} {s : String} {d δ : Nat} {y : String}
    {rest : List (String × Nat)} {vis res : List String}
    (inv : BfsInv nbrs s d ((y, δ) :: rest) vis res) (hδ : δ < d)
    (new : List String) (hnd : new.Nodup)
    (hmem : ∀ x, x ∈ new ↔ x ∈ nbrs y ∧ x ∉ vis) :
    BfsInv nbrs s d (rest ++ new.map (fun x => (x, δ + 1))) (new.reverse ++ vis)
      (res ++ new) := by
  have hreach_y : ReachIn nbrs s δ y := inv.q_reach (y, δ) (List.mem_cons_self _ _)
  have hlayer : ∀ u, ReachIn nbrs s δ u → u ∈ vis :=
    layer_complete inv (Nat.le_of_lt hδ)
  have hvis' : ∀ x, x ∈ new.reverse ++ vis ↔ x ∈ new ∨ x ∈ vis := by
    intro x; rw [List.mem_append, List.mem_reverse]
  have hnbrsy : ∀ u ∈ nbrs y, u ∈ new.reverse ++ vis := by
    intro u hu
    rw [hvis' u]
    by_cases hv : u ∈ vis
    · exact Or.inr hv
    · exact Or.inl ((hmem u).mpr ⟨hu, hv⟩)
  have hq'mem : ∀ p, p ∈ rest ++ new.map (fun x => (x, δ + 1)) ↔
      p ∈ rest ∨ ∃ x ∈ new, p = (x, δ + 1) := by
    intro p
    rw [List.mem_append, List.mem_map]
    constructor
    · rintro (h | ⟨x, hx, rfl⟩)
      · exact Or.inl h
      · exact Or.inr ⟨x, hx, rfl⟩
    · rintro (h | ⟨x, hx, rfl⟩)
      · exact Or.inl h
      · exact Or.inr ⟨x, hx, rfl⟩
  have hsorted_old := inv.q_sorted
  rw [List.map_cons, List.sorted_cons] at hsorted_old
  have hrest_ge : ∀ p ∈ rest, δ ≤ p.2 := by
    intro p hp
    exact hsorted_old.1 p.2 (List.mem_map.mpr ⟨p, hp, rfl⟩)
  have hrest_le : ∀ p ∈ rest, p.2 ≤ δ + 1 := by
    intro p hp
    have := inv.q_band p (List.mem_cons_of_mem _ hp)
    simpa [frontD] using this
  have hmem_res_vis : ∀ x ∈ res, x ∈ vis := fun x hx => (inv.vis_eq x).mpr (Or.inr hx)
  -- the expanded invariant first (front_complete below uses it)
  have hexp : ∀ x ∈ new.reverse ++ vis,
      (∀ dx, (x, dx) ∉ rest ++ new.map (fun x => (x, δ + 1))) →
      ∀ k, ReachIn nbrs s k x → k < d → ∀ yy ∈ nbrs x, yy ∈ new.reverse ++ vis := by
    intro x hx hxq k hreach hkd yy hyy
    rcases (hvis' x).mp hx with hxnew | hxvis
    · exact absurd ((hq'mem (x, δ + 1)).mpr (Or.inr ⟨x, hxnew, rfl⟩)) (hxq (δ + 1))
    · by_cases hxy : x = y
      · exact hnbrsy yy (hxy ▸ hyy)
      · have hxq_old : ∀ dx, (x, dx) ∉ ((y, δ) :: rest) := by
          intro dx hdx
          rcases List.mem_cons.mp hdx with hhead | hrest
          · exact hxy (congrArg Prod.fst hhead)
          · exact hxq dx ((hq'mem (x, dx)).mpr (Or.inl hrest))
        exact (hvis' yy).mpr (Or.inr (inv.expanded x hxvis hxq_old k hreach hkd yy hyy))
  refine ⟨?_, ?_, ?_, ?_, ?_, ?_, ?_, ?_, ?_, ?_, hexp⟩
  · -- vis_eq
    intro x
    rw [hvis' x, inv.vis_eq x, List.mem_append]
    tauto
  · -- start_not_res
    rw [List.mem_append]
    rintro (h | h)
    · exact inv.start_not_res h
    · exact ((hmem s).mp h).2 inv.start_mem_vis
  · -- res_nodup
    refine inv.res_nodup.append hnd ?_
    intro x hxres hxnew
    exact ((hmem x).mp hxnew).2 (hmem_res_vis x hxres)
  · -- res_sound
    intro x hx
    rcases List.mem_append.mp hx with h | h
    · exact inv.res_sound x h
    · exact ⟨δ + 1, Nat.succ_le_succ (Nat.zero_le δ), hδ,
        hreach_y.succ ((hmem x).mp h).1⟩
  · -- q_reach
    intro p hp
    rcases (hq'mem p).mp hp with h | ⟨x, hx, rfl⟩
    · exact inv.q_reach p (List.mem_cons_of_mem _ h)
    · exact hreach_y.succ ((hmem x).mp hx).1
  · -- q_min
    intro p hp k hk
    rcases (hq'mem p).mp hp with h | ⟨x, hx, rfl⟩
    · exact inv.q_min p (List.mem_cons_of_mem _ h) k hk
    · by_contra hcon
      have hkδ : k ≤ δ := by omega
      exact ((hmem x).mp hx).2 (hlayer x (hk.of_le hkδ))
  · -- q_sorted
    rw [List.map_append]
    refine List.pairwise_append.mpr ⟨hsorted_old.2, ?_, ?_⟩
    · have : (new.map (fun x => (x, δ + 1))).map Prod.snd = new.map (fun _ => δ + 1) := by
        rw [List.map_map]; rfl
      rw [this]; exact sorted_map_const new (δ + 1)
    · intro a haa b hbb
      rcases List.mem_map.mp haa with ⟨p, hp, rfl⟩
      rcases List.mem_map.mp hbb with ⟨q, hq, rfl⟩
      rcases List.mem_map.mp hq with ⟨x, hx, rfl⟩
      exact hrest_le p hp
  · -- q_band
    intro p hp
    have hp_le : p.2 ≤ δ + 1 := by
      rcases (hq'mem p).mp hp with h | ⟨x, hx, rfl⟩
      · exact hrest_le p h
      · exact Nat.le_refl _
    cases hq' : rest ++ new.map (fun x => (x, δ + 1)) with
    | nil => rw [hq'] at hp; cases hp
    | cons q qs =>
      have hq_ge : δ ≤ q.2 := by
        have hqmem : q ∈ rest ++ new.map (fun x => (x, δ + 1)) := by
          rw [hq']; exact List.mem_cons_self _ _
        rcases (hq'mem q).mp hqmem with h | ⟨x, hx, rfl⟩
        · exact hrest_ge q h
        · omega
      simp only [hq', frontD]
      omega
  · -- q_le_d
    intro p hp
    rcases (hq'mem p).mp hp with h | ⟨x, hx, rfl⟩
    · exact inv.q_le_d p (List.mem_cons_of_mem _ h)
    · omega
  · -- front_complete
    intro u k hreach hkd hkfront
    cases hq' : rest ++ new.map (fun x => (x, δ + 1)) with
    | nil =>
      -- the queue has drained entirely: apply the closure argument
      have hclosed : ∀ x ∈ new.reverse ++ vis, ∀ k', ReachIn nbrs s k' x → k' < d →
          ∀ yy ∈ nbrs x, yy ∈ new.reverse ++ vis := by
        intro x hx k' h1 h2 yy hyy
        exact hexp x hx (by rw [hq']; intro dx h; cases h) k' h1 h2 yy hyy
      exact reach_complete_of_closed ((hvis' s).mpr (Or.inr inv.start_mem_vis))
        hclosed k u hreach hkd
    | cons q qs =>
      have hqmem : q ∈ rest ++ new.map (fun x => (x, δ + 1)) := by
        rw [hq']; exact List.mem_cons_self _ _
      have hq_le : q.2 ≤ δ + 1 := by
        rcases (hq'mem q).mp hqmem with h | ⟨x, hx, rfl⟩
        · exact hrest_le q h
        · exact Nat.le_refl _
      rw [hq'] at hkfront
      simp only [frontD] at hkfront
      have hkδ : k ≤ δ := by omega
      rcases Nat.lt_or_ge k δ with hlt | hge
      · exact (hvis' u).mpr (Or.inr (inv.front_complete u k hreach hkd
          (by simp [frontD]; omega)))
      · have hkeq : k = δ := by omega
        exact (hvis' u).mpr (Or.inr (hlayer u (hkeq ▸ hreach)))

/-- Master lemma for the BFS loop: given the invariant and enough fuel
    (queue length plus the number of candidate nodes not yet visited),
    the final result is complete for reachability within `maxDepth`,
    excludes the start, is duplicate-free, and is sound. -/
theorem bfs_master {nbrs : String → List String} {s : String} {d : Nat}
    (C : Finset String) (hC : ∀ x y, y ∈ nbrs x → y ∈ C) :
    ∀ (fuel : Nat) (qs : List (String × Nat)) (vis res : List String),
      qs.length + (C \ vis.toFinset).card ≤ fuel →
      BfsInv nbrs s d qs vis res →
      (∀ u k, ReachIn nbrs s k u → k ≤ d → u = s ∨ u ∈ bfsAux nbrs d fuel qs vis res)
      ∧ s ∉ bfsAux nbrs d fuel qs vis res
      ∧ (bfsAux nbrs d fuel qs vis res).Nodup
      ∧ ∀ x ∈ bfsAux nbrs d fuel qs vis res,
          ∃ k, 1 ≤ k ∧ k ≤ d ∧ ReachIn nbrs s k x := by
  intro fuel
  induction fuel with
  | zero =>
    intro qs vis res hfuel inv
    have hqs : qs = [] := by
      cases qs with
      | nil => rfl
      | cons q qs => simp at hfuel
    subst hqs
    refine ⟨?_, inv.start_not_res, inv.res_nodup, inv.res_sound⟩
    intro u k hreach hkd
    have hu : u ∈ vis := inv.front_complete u k hreach hkd (by simp [frontD]; omega)
    exact (inv.vis_eq u).mp hu
  | succ fuel ih =>
    intro qs vis res hfuel inv
    cases qs with
    | nil =>
      refine ⟨?_, inv.start_not_res, inv.res_nodup, inv.res_sound⟩
      intro u k hreach hkd
      have hu : u ∈ vis := inv.front_complete u k hreach hkd (by simp [frontD]; omega)
      exact (inv.vis_eq u).mp hu
    | cons q rest =>
      obtain ⟨y, δ⟩ := q
      by_cases hd : d ≤ δ
      · have hstep : bfsAux nbrs d (fuel + 1) ((y, δ) :: rest) vis res
            = bfsAux nbrs d fuel rest vis res := by
          simp [bfsAux, hd]
        rw [hstep]
        refine ih rest vis res ?_ (bfsInv_skip inv hd)
        simp only [List.length_cons] at hfuel
        omega
      · have hδ : δ < d := Nat.lt_of_not_le hd
        obtain ⟨new, heq, hnd, hmem⟩ := bfsFold_spec δ (nbrs y) rest vis res
        have hstep : bfsAux nbrs d (fuel + 1) ((y, δ) :: rest) vis res
            = bfsAux nbrs d fuel (rest ++ new.map (fun x => (x, δ + 1)))
                (new.reverse ++ vis) (res ++ new) := by
          simp only [bfsAux, if_neg hd, heq]
        rw [hstep]
        have hsub : new.toFinset ⊆ C \ vis.toFinset := by
          intro x hx
          rw [List.mem_toFinset] at hx
          rw [Finset.mem_sdiff, List.mem_toFinset]
          exact ⟨hC y x ((hmem x).mp hx).1, ((hmem x).mp hx).2⟩
        have hcard_new : new.toFinset.card = new.length := List.toFinset_card_of_nodup hnd
        have hset : C \ (new.reverse ++ vis).toFinset
            = (C \ vis.toFinset) \ new.toFinset := by
          ext a
          simp only [Finset.mem_sdiff, List.toFinset_append, List.toFinset_reverse,
            Finset.mem_union]
          tauto
        have hle : new.length ≤ (C \ vis.toFinset).card := by
          rw [← hcard_new]
          exact Finset.card_le_card hsub
        refine ih _ _ _ ?_ (bfsInv_expand inv hδ new hnd hmem)
        have hcard : (C \ (new.reverse ++ vis).toFinset).card
            = (C \ vis.toFinset).card - new.length := by
          rw [hset, Finset.card_sdiff hsub, hcard_new]
        rw [List.length_append, List.length_map, hcard]
        simp only [List.length_cons] at hfuel
        omega

/-- The invariant holds at the initial BFS state
    `queue = [(start, 0)]`, `visited = [start]`, `result = []`. -/
theorem bfsInv_init (nbrs : String → List String) (s : String) (d : Nat) :
    BfsInv nbrs s d [(s, 0)] [s] [] := by
  refine ⟨?_, ?_, ?_, ?_, ?_, ?_, ?_, ?_, ?_, ?_, ?_⟩
  · intro x; simp
  · simp
  · exact List.nodup_nil
  · intro x hx; cases hx
  · intro p hp
    rcases List.mem_singleton.mp hp with rfl
    exact .zero
  · intro p hp k _
    rcases List.mem_singleton.mp hp with rfl
    exact Nat.zero_le k
  · simp
  · intro p hp
    rcases List.mem_singleton.mp hp with rfl
    simp [frontD]
  · intro p hp
    rcases List.mem_singleton.mp hp with rfl
    exact Nat.zero_le d
  · intro u k _ _ hk
    simp [frontD] at hk
  · intro x hx hq
    rcases List.mem_singleton.mp hx with rfl
    exact absurd (List.mem_singleton.mpr rfl) (hq 0)

/-- Input/output characterization of the BFS flat traversal, for any
    neighbor function with candidate set `C` and fuel beyond `|C| + 1`:
    the result is exactly the set of nodes distinct from the start that
    are reachable within `maxDepth` steps, without duplicates. -/
theorem bfsFlat_spec {nbrs : String → List String} {s : String} {d : Nat}
    (C : Finset String) (hC : ∀ x y, y ∈ nbrs x → y ∈ C)
    (fuel : Nat) (hfuel : C.card + 1 ≤ fuel) :
    (∀ u, u ∈ bfsAux nbrs d fuel [(s, 0)] [s] []
        ↔ u ≠ s ∧ ∃ k, k ≤ d ∧ ReachIn nbrs s k u)
    ∧ s ∉ bfsAux nbrs d fuel [(s, 0)] [s] []
    ∧ (bfsAux nbrs d fuel [(s, 0)] [s] []).Nodup := by
  have hcard : (C \ [s].toFinset).card ≤ C.card :=
    Finset.card_le_card (Finset.sdiff_subset)
  obtain ⟨hcomp, hstart, hnodup, hsound⟩ :=
    bfs_master C hC fuel [(s, 0)] [s] []
      (by simp only [List.length_cons, List.length_nil]; omega) (bfsInv_init nbrs s d)
  refine ⟨?_, hstart, hnodup⟩
  intro u
  constructor
  · intro hu
    obtain ⟨k, _, hkd, hre⟩ := hsound u hu
    exact ⟨fun he => hstart (he ▸ hu), k, hkd, hre⟩
  · rintro ⟨hne, k, hkd, hre⟩
    rcases hcomp u k hre hkd with h | h
    · exact absurd h hne
    · exact h

/-- Characterization of `transitiveCalleesFlat`: exactly the nodes other
    than the start reachable over forward edges of any kind within
    `maxDepth` steps, duplicate-free, start excluded. -/
theorem transitiveCalleesFlat_spec (db : DB) (s : String) (d : Nat) :
    (∀ u, u ∈ transitiveCalleesFlat db s d
        ↔ u ≠ s ∧ ∃ k, k ≤ d ∧ ReachIn (immediateCalleesIds db) s k u)
    ∧ s ∉ transitiveCalleesFlat db s d
    ∧ (transitiveCalleesFlat db s d).Nodup := by
  have hC : ∀ x y, y ∈ immediateCalleesIds db x → y ∈ (db.edges.map (·.to_id)).toFinset := by
    intro x y hy
    rw [List.mem_toFinset]
    rcases List.mem_map.mp hy with ⟨e, he, rfl⟩
    exact List.mem_map.mpr ⟨e, (List.mem_filter.mp he).1, rfl⟩
  have hcard : (db.edges.map (·.to_id)).toFinset.card + 1 ≤ bfsFuel db := by
    have h1 : (db.edges.map (·.to_id)).toFinset.card ≤ (db.edges.map (·.to_id)).length :=
      List.toFinset_card_le _
    rw [List.length_map] at h1
    simp only [bfsFuel]
    omega
  exact bfsFlat_spec (db.edges.map (·.to_id)).toFinset hC (bfsFuel db) hcard

/-- Characterization of `transitiveCallersFlat` (reverse edges). -/
theorem transitiveCallersFlat_spec (db : DB) (s : String) (d : Nat) :
    (∀ u, u ∈ transitiveCallersFlat db s d
        ↔ u ≠ s ∧ ∃ k, k ≤ d ∧ ReachIn (immediateCallersIds db) s k u)
    ∧ s ∉ transitiveCallersFlat db s d
    ∧ (transitiveCallersFlat db s d).Nodup := by
  have hC : ∀ x y, y ∈ immediateCallersIds db x
      → y ∈ (db.edges.map (·.from_id)).toFinset := by
    intro x y hy
    rw [List.mem_toFinset]
    rcases List.mem_map.mp hy with ⟨e, he, rfl⟩
    exact List.mem_map.mpr ⟨e, (List.mem_filter.mp he).1, rfl⟩
  have hcard : (db.edges.map (·.from_id)).toFinset.card + 1 ≤ bfsFuel db := by
    have h1 : (db.edges.map (·.from_id)).toFinset.card
        ≤ (db.edges.map (·.from_id)).length := List.toFinset_card_le _
    rw [List.length_map] at h1
    simp only [bfsFuel]
    omega
  exact bfsFlat_spec (db.edges.map (·.from_id)).toFinset hC (bfsFuel db) hcard

/-! ## DFS tree soundness -/

/-- Soundness of a raw tree: every child's root is a neighbor of its
    parent, recursively. -/
inductive TreeSound (nbrs : String → List String) : RawTree → Prop
  | node (i : String) (cs : List RawTree)
      (hnb : ∀ c ∈ cs, RawTree.rootId c ∈ nbrs i)
      (hrec : ∀ c ∈ cs, TreeSound nbrs c) : TreeSound nbrs (.node i cs)

/-- The children produced by one `treeBuildStep` pass: each has its
    source element as root and is sound (assuming the recursion is). -/
theorem treeBuildStep_sound {nbrs : String → List String}
    (rec : String → List String → RawTree × List String)
    (hrec : ∀ t vis, (rec t vis).1.rootId = t ∧ TreeSound nbrs (rec t vis).1) :
    ∀ (ts vis : List String), ∀ c ∈ (treeBuildStep rec ts vis).1,
      c.rootId ∈ ts ∧ TreeSound nbrs c := by
  intro ts
  induction ts with
  | nil => intro vis c hc; cases hc
  | cons t ts ih =>
    intro vis c hc
    by_cases ht : t ∈ vis
    · rw [treeBuildStep, if_pos ht] at hc
      rcases List.mem_cons.mp hc with rfl | hc
      · exact ⟨List.mem_cons_self _ _,
          .node t [] (fun c hc => by cases hc) (fun c hc => by cases hc)⟩
      · obtain ⟨h1, h2⟩ := ih vis c hc
        exact ⟨List.mem_cons_of_mem _ h1, h2⟩
    · rw [treeBuildStep, if_neg ht] at hc
      rcases List.mem_cons.mp hc with rfl | hc
      · obtain ⟨h1, h2⟩ := hrec t (t :: vis)
        exact ⟨by rw [h1]; exact List.mem_cons_self _ _, h2⟩
      · obtain ⟨h1, h2⟩ := ih _ c hc
        exact ⟨List.mem_cons_of_mem _ h1, h2⟩

/-- `treeBuild` returns a tree rooted at its argument, sound for the
    neighbor function. -/
theorem treeBuild_ok {nbrs : String → List String} :
    ∀ (fuel : Nat) (n : String) (vis : List String),
      (treeBuild nbrs fuel n vis).1.rootId = n
      ∧ TreeSound nbrs (treeBuild nbrs fuel n vis).1 := by
  intro fuel
  induction fuel with
  | zero =>
    intro n vis
    exact ⟨rfl, .node n [] (fun c hc => by cases hc) (fun c hc => by cases hc)⟩
  | succ fuel ih =>
    intro n vis
    refine ⟨rfl, .node n _ ?_ ?_⟩
    · intro c hc
      exact (treeBuildStep_sound (treeBuild nbrs fuel) (fun t vis => ih t vis)
        (nbrs n) vis c hc).1
    · intro c hc
      exact (treeBuildStep_sound (treeBuild nbrs fuel) (fun t vis => ih t vis)
        (nbrs n) vis c hc).2

/-- Membership in the ids of a converted child list: the id comes from
    some child whose conversion succeeded. -/
theorem mem_idsOfForest_convertChildren {db : DB} {fuel : Nat} {u : String} :
    ∀ (cs : List RawTree),
      u ∈ idsOfForest (convertChildrenStep (convertTree db fuel) cs) →
      ∃ c ∈ cs, ∃ tc, convertTree db fuel c = some tc ∧ u ∈ tc.idsT := by
  intro cs
  induction cs with
  | nil => intro h; cases h
  | cons c cs ih =>
    intro h
    rw [convertChildrenStep] at h
    cases hc : convertTree db fuel c with
    | none =>
      rw [hc] at h
      obtain ⟨c', hc', tc, h1, h2⟩ := ih h
      exact ⟨c', List.mem_cons_of_mem _ hc', tc, h1, h2⟩
    | some tc =>
      rw [hc] at h
      rw [idsOfForest, List.mem_append] at h
      rcases h with h | h
      · exact ⟨c, List.mem_cons_self _ _, tc, hc, h⟩
      · obtain ⟨c', hc', tc', h1, h2⟩ := ih h
        exact ⟨c', List.mem_cons_of_mem _ hc', tc', h1, h2⟩

/-- Every id in a filtered tree is reachable (within the root's depth
    plus the remaining fuel) and present in the node table. -/
theorem convertTree_ids {db : DB} {nbrs : String → List String} {s : String} :
    ∀ (fuel : Nat) (t : RawTree) (j : Nat), TreeSound nbrs t →
      ReachIn nbrs s j t.rootId →
      ∀ ft, convertTree db fuel t = some ft →
      ∀ u ∈ ft.idsT, ∃ k, k ≤ j + fuel ∧ ReachIn nbrs s k u ∧ nodePresent db u = true := by
  intro fuel
  induction fuel with
  | zero =>
    rintro ⟨i, cs⟩ j hsound hreach ft hft u hu
    simp only [convertTree] at hft
    by_cases hp : nodePresent db i
    · rw [if_pos hp] at hft
      cases hft
      rcases List.mem_singleton.mp (by simpa [TreeNodeF.idsT, idsOfForest] using hu) with rfl
      exact ⟨j, Nat.le_refl _, hreach, hp⟩
    · rw [if_neg hp] at hft; cases hft
  | succ fuel ih =>
    rintro ⟨i, cs⟩ j hsound hreach ft hft u hu
    simp only [convertTree] at hft
    by_cases hp : nodePresent db i
    · rw [if_pos hp] at hft
      cases hft
      rw [TreeNodeF.idsT, List.mem_cons] at hu
      rcases hu with rfl | hu
      · exact ⟨j, Nat.le_add_right _ _, hreach, hp⟩
      · obtain ⟨c, hc, tc, h1, h2⟩ := mem_idsOfForest_convertChildren cs hu
        cases hsound with
        | node _ _ hnb hrec =>
          have hreach' : ReachIn nbrs s (j + 1) c.rootId := hreach.succ (hnb c hc)
          obtain ⟨k, hk1, hk2, hk3⟩ := ih c (j + 1) (hrec c hc) hreach' tc h1 u h2
          exact ⟨k, by omega, hk2, hk3⟩
    · rw [if_neg hp] at hft; cases hft

/-! ## All-paths DFS soundness -/

/-- A path returned from the neighbor loop comes from recursing into some
    neighbor not already on the path. -/
theorem dfsStep_mem {rec : String → List String → List (List String)}
    {p path : List String} :
    ∀ ns : List String, p ∈ dfsStep rec ns path →
      ∃ nid ∈ ns, nid ∉ path ∧ p ∈ rec nid (path ++ [nid]) := by
  intro ns
  induction ns with
  | nil => intro h; cases h
  | cons nid rest ih =>
    intro h
    rw [dfsStep, List.mem_append] at h
    rcases h with h | h
    · by_cases hmem : nid ∈ path
      · rw [if_pos hmem] at h; cases h
      · rw [if_neg hmem] at h
        exact ⟨nid, List.mem_cons_self _ _, hmem, h⟩
    · obtain ⟨n, h1, h2, h3⟩ := ih h
      exact ⟨n, List.mem_cons_of_mem _ h1, h2, h3⟩

/-- Soundness invariant of `dfs`: every returned path extends the current
    path (same head), ends at the target, repeats no node, and stays
    within the depth limit. -/
theorem dfsPaths_sound {nbrs : String → List String} {target : String} {dl : Nat} :
    ∀ (fuel : Nat) (curr : String) (path : List String),
      path ≠ [] → path.getLast? = some curr → path.Nodup →
      ∀ p ∈ dfsPaths nbrs target dl fuel curr path,
        p.head? = path.head? ∧ p.getLast? = some target ∧ p.Nodup ∧ p.length ≤ dl := by
  intro fuel
  induction fuel with
  | zero =>
    intro curr path _ _ _ p hp
    simp only [dfsPaths] at hp
    rcases Nat.lt_or_ge dl path.length with h | h
    · rw [if_pos h] at hp; cases hp
    · rw [if_neg (Nat.not_lt.mpr h)] at hp; cases hp
  | succ fuel ih =>
    intro curr path hne hlast hnd p hp
    simp only [dfsPaths] at hp
    by_cases hlen : dl < path.length
    · rw [if_pos hlen] at hp; cases hp
    · rw [if_neg hlen] at hp
      by_cases htgt : curr == target
      · rw [if_pos htgt] at hp
        rcases List.mem_singleton.mp hp with rfl
        have : curr = target := by simpa using htgt
        exact ⟨rfl, this ▸ hlast, hnd, Nat.le_of_not_lt hlen⟩
      · rw [if_neg htgt] at hp
        obtain ⟨nid, hns, hnp, hrec⟩ := dfsStep_mem (nbrs curr) hp
        have hne' : path ++ [nid] ≠ [] := by simp
        have hlast' : (path ++ [nid]).getLast? = some nid := by
          simp [List.getLast?_append]
        have hnd' : (path ++ [nid]).Nodup := by
          rw [List.nodup_append]
          exact ⟨hnd, List.nodup_singleton _, by simpa using hnp⟩
        obtain ⟨h1, h2, h3, h4⟩ := ih nid (path ++ [nid]) hne' hlast' hnd' p hrec
        refine ⟨?_, h2, h3, h4⟩
        rw [h1]
        cases path with
        | nil => exact absurd rfl hne
        | cons a t => simp

/-! ## Example databases for the claim theorems -/

/-- A database whose only edge is a containment edge. -/
def exC2db : DB :=
  { nodes := [⟨"a", "file"⟩, ⟨"b", "function"⟩],
    edges := [⟨"a", "b", "contains"⟩] }

/-- Call graph `v → a → b → c`, `v → b`: the DFS tree reaches `b` through
    `a` at depth 2 and prunes `c`, which BFS reaches at depth 2. -/
def exC3db : DB :=
  { nodes := [⟨"v", "function"⟩, ⟨"a", "function"⟩, ⟨"b", "function"⟩, ⟨"c", "function"⟩],
    edges := [⟨"v", "a", "call"⟩, ⟨"a", "b", "call"⟩, ⟨"v", "b", "call"⟩,
              ⟨"b", "c", "call"⟩] }

/-- A two-node call graph `a → b`. -/
def exC4db : DB :=
  { nodes := [⟨"a", "function"⟩, ⟨"b", "function"⟩],
    edges := [⟨"a", "b", "call"⟩] }

/-- A database where `x` has an outgoing edge but no node row. -/
def exC10db : DB :=
  { nodes := [], edges := [⟨"x", "y", "call"⟩] }

/-- A filtered tree at `maxDepth = 0` is the root alone, whether or not
    the root is in the node table. -/
theorem buildFilteredTree_zero (db : DB) (t : RawTree) :
    buildFilteredTree db t 0 = ⟨t.rootId, []⟩ := by
  obtain ⟨i, cs⟩ := t
  by_cases hp : nodePresent db i <;>
    simp [buildFilteredTree, convertTree, hp, RawTree.rootId]

/-- Claim C2 (amended): `transitiveCallersFlat` / `transitiveCalleesFlat`
    perform a breadth-first search over reverse (respectively forward)
    edges of **every** kind — the neighbor query has no edge-type filter —
    with a visited set keyed by node id: the result never contains the
    start, has no duplicates, and holds exactly the nodes reachable
    within `maxDepth` edges. -/
theorem claim_c2_flat_traversal_characterization :
    ∀ (db : DB) (s : String) (d : Nat),
      (s ∉ transitiveCalleesFlat db s d
        ∧ (transitiveCalleesFlat db s d).Nodup
        ∧ ∀ u, u ∈ transitiveCalleesFlat db s d
            ↔ u ≠ s ∧ ∃ k, k ≤ d ∧ ReachIn (immediateCalleesIds db) s k u)
      ∧ (s ∉ transitiveCallersFlat db s d
        ∧ (transitiveCallersFlat db s d).Nodup
        ∧ ∀ u, u ∈ transitiveCallersFlat db s d
            ↔ u ≠ s ∧ ∃ k, k ≤ d ∧ ReachIn (immediateCallersIds db) s k u) := by
  intro db s d
  obtain ⟨h1, h2, h3⟩ := transitiveCalleesFlat_spec db s d
  obtain ⟨g1, g2, g3⟩ := transitiveCallersFlat_spec db s d
  exact ⟨⟨h2, h3, h1⟩, ⟨g2, g3, g1⟩⟩

/-- Claim C2, counterexample: the BFS is not restricted to `call` and
    `method_call` edges — on a lone `contains` edge the code's traversal
    returns the target while the spec's call-edges-only BFS returns
    nothing. -/
theorem claim_c2_counterexample :
    transitiveCalleesFlat exC2db "a" 200 = ["b"]
    ∧ transitiveCalleesFlatSpecCalls exC2db "a" 200 = []
    ∧ ¬ ∀ (db : DB) (s : String) (d : Nat),
          transitiveCalleesFlat db s d = transitiveCalleesFlatSpecCalls db s d := by
  refine ⟨by decide, by decide, fun h => ?_⟩
  have hne : transitiveCalleesFlat exC2db "a" 200
      ≠ transitiveCalleesFlatSpecCalls exC2db "a" 200 := by decide
  exact hne (h exC2db "a" 200)

/-- Claim C3 (amended): every node id in the tree returned by
    `transitiveCalleesTree(v)` other than `v` also appears in
    `transitiveCalleesFlat(v)` for the same `maxDepth` (the converse
    inclusion fails, see the counterexample). -/
theorem claim_c3_tree_subset_flat :
    ∀ (db : DB) (s : String) (d : Nat) (u : String),
      u ∈ (transitiveCalleesTree db s d).idsT → u ≠ s →
      u ∈ transitiveCalleesFlatAPI db s d := by
  intro db s d u hu hne
  have hroot : (transitiveCalleesTreeAlg db s d).rootId = s :=
    (treeBuild_ok (d + 1) s [s]).1
  cases hconv : convertTree db d (transitiveCalleesTreeAlg db s d) with
  | none =>
    rw [transitiveCalleesTree, buildFilteredTree, hconv] at hu
    rw [TreeNodeF.idsT] at hu
    rcases List.mem_singleton.mp (by simpa [idsOfForest] using hu) with rfl
    exact absurd hroot hne
  | some ft =>
    rw [transitiveCalleesTree, buildFilteredTree, hconv] at hu
    have hsound : TreeSound (immediateCalleesIds db) (transitiveCalleesTreeAlg db s d) :=
      (treeBuild_ok (d + 1) s [s]).2
    have hreach0 : ReachIn (immediateCalleesIds db) s 0
        (transitiveCalleesTreeAlg db s d).rootId := by
      rw [hroot]; exact .zero
    obtain ⟨k, hk, hre, hp⟩ :=
      convertTree_ids d (transitiveCalleesTreeAlg db s d) 0 hsound hreach0 ft hconv u hu
    have hflat : u ∈ transitiveCalleesFlat db s d :=
      ((transitiveCalleesFlat_spec db s d).1 u).mpr ⟨hne, k, by omega, hre⟩
    exact List.mem_filter.mpr ⟨hflat, hp⟩

/-- Claim C3, witness: in `exC3db` the tree node `a` indeed shows up in
    the flat result. -/
theorem claim_c3_tree_subset_flat_witness :
    "a" ∈ transitiveCalleesFlatAPI exC3db "v" 2 :=
  claim_c3_tree_subset_flat exC3db "v" 2 "a" (by decide) (by decide)

/-- Claim C3, counterexample: with `maxDepth = 2` on `exC3db` the flat
    result contains `c` but the tree does not (the DFS discovered `b` at
    depth 2 through `a`, so `c` sits at depth 3 and is pruned), so the
    two id sets differ. -/
theorem claim_c3_counterexample :
    "c" ∈ transitiveCalleesFlatAPI exC3db "v" 2
    ∧ "c" ∉ (transitiveCalleesTree exC3db "v" 2).idsT
    ∧ ¬ ∀ u, u ∈ transitiveCalleesFlatAPI exC3db "v" 2
          ↔ u ∈ (transitiveCalleesTree exC3db "v" 2).idsT ∧ u ≠ "v" := by
  refine ⟨by decide, by decide, fun h => ?_⟩
  have h2 := (h "c").mp (by decide)
  exact (by decide : "c" ∉ (transitiveCalleesTree exC3db "v" 2).idsT) h2.1

/-- Claim C4: every path returned by `allCallChains(s, t)` starts with
    `s`, ends with `t`, repeats no node, and has at most `depthLimit`
    nodes; at most `maxPaths` paths are returned. -/
theorem claim_c4_path_soundness :
    ∀ (db : DB) (s t : String) (dl mp : Nat),
      (∀ p ∈ allCallChainsRaw db s t dl mp,
        p.head? = some s ∧ p.getLast? = some t ∧ p.Nodup ∧ p.length ≤ dl)
      ∧ (allCallChainsRaw db s t dl mp).length ≤ mp := by
  intro db s t dl mp
  constructor
  · intro p hp
    have hp' : p ∈ allPathsBetween db s t dl := List.take_subset mp _ hp
    obtain ⟨h1, h2, h3, h4⟩ := dfsPaths_sound (dl + 1) s [s] (by simp) (by simp)
      (List.nodup_singleton s) p hp'
    exact ⟨by simpa using h1, h2, h3, h4⟩
  · exact List.length_take_le mp _

/-- Claim C4, witness: the single chain of `exC4db` from `a` to `b`. -/
theorem claim_c4_path_soundness_witness :
    (["a", "b"] : List String).head? = some "a"
    ∧ (["a", "b"] : List String).getLast? = some "b"
    ∧ (["a", "b"] : List String).Nodup
    ∧ (["a", "b"] : List String).length ≤ 20 :=
  (claim_c4_path_soundness exC4db "a" "b" 20 1000).1 ["a", "b"] (by decide)

/-- Claim C8: with `maxDepth = 0` the flat traversals return the empty
    list and the tree traversals return the root alone, with no
    children. -/
theorem claim_c8_maxdepth_zero :
    ∀ (db : DB) (s : String),
      transitiveCalleesFlat db s 0 = []
      ∧ transitiveCallersFlat db s 0 = []
      ∧ transitiveCalleesTree db s 0 = ⟨s, []⟩
      ∧ transitiveCallersTree db s 0 = ⟨s, []⟩ := by
  intro db s
  refine ⟨?_, ?_, ?_, ?_⟩
  · rw [List.eq_nil_iff_forall_not_mem]
    intro u hu
    obtain ⟨hne, k, hk, hre⟩ := ((transitiveCalleesFlat_spec db s 0).1 u).mp hu
    have hk0 : k = 0 := Nat.le_antisymm hk (Nat.zero_le k)
    exact hne (reachIn_zero_iff.mp (hk0 ▸ hre))
  · rw [List.eq_nil_iff_forall_not_mem]
    intro u hu
    obtain ⟨hne, k, hk, hre⟩ := ((transitiveCallersFlat_spec db s 0).1 u).mp hu
    have hk0 : k = 0 := Nat.le_antisymm hk (Nat.zero_le k)
    exact hne (reachIn_zero_iff.mp (hk0 ▸ hre))
  · rw [transitiveCalleesTree, buildFilteredTree_zero, transitiveCalleesTreeAlg,
      (treeBuild_ok (0 + 1) s [s]).1]
  · rw [transitiveCallersTree, buildFilteredTree_zero, transitiveCallersTreeAlg,
      (treeBuild_ok (0 + 1) s [s]).1]

/-- Claim C10: `allCallChains(s, s)` returns exactly the single-node
    chain `[s]` (for any positive depth limit and path cap), regardless
    of `s`'s outgoing edges and of whether `s` is in the node table: the
    target check precedes neighbor expansion. -/
theorem claim_c10_self_chain :
    ∀ (db : DB) (s : String) (dl mp : Nat), 1 ≤ dl → 1 ≤ mp →
      allCallChainsRaw db s s dl mp = [[s]] := by
  intro db s dl mp h1 h2
  have hpaths : allPathsBetween db s s dl = [[s]] := by
    rw [allPathsBetween]
    simp only [dfsPaths]
    rw [if_neg (by simp; omega : ¬ dl < ([s] : List String).length),
      if_pos (beq_self_eq_true s)]
  rw [allCallChainsRaw, hpaths]
  cases mp with
  | zero => omega
  | succ m => simp

/-- Claim C10, witness: on a store with an outgoing edge from `x` and no
    node row for `x`, `allCallChains(x, x)` is exactly `[[x]]`. -/
theorem claim_c10_self_chain_witness :
    allCallChainsRaw exC10db "x" "x" 20 1000 = [["x"]] :=
  claim_c10_self_chain exC10db "x" 20 1000 (by decide) (by decide)

/-! ## Claim C9: queries on a missing node -/

/-- The empty database with a query for the absent id `x` — on it
    `allCallChains("x","x")` returns the one-node chain, not an empty
    result. -/
def exC9db : DB := { nodes := [], edges := [] }

/-- From an isolated start (no neighbors), nothing else is reachable. -/
theorem reachIn_isolated {nbrs : String → List String} {s : String}
    (hs : nbrs s = []) : ∀ (k : Nat) (u : String), ReachIn nbrs s k u → u = s := by
  intro k u h
  induction h with
  | zero => rfl
  | succ hp hy ih => rw [ih] at hy; rw [hs] at hy; cases hy
  | mono _ ih => exact ih

/-- Claim C9, counterexample: on the empty store, the id `x` is missing,
    yet `allCallChains("x", "x")` returns the non-empty `[["x"]]` — so
    not every listed query operation returns an empty result on a
    missing node. -/
theorem claim_c9_counterexample :
    getNode exC9db "x" = none
    ∧ nodePresent exC9db "x" = false
    ∧ allCallChainsRaw exC9db "x" "x" 20 1000 = [["x"]]
    ∧ allCallChainsRaw exC9db "x" "x" 20 1000 ≠ [] := by
  exact ⟨by decide, by decide, by decide, by decide⟩

/-- Claim C9 (amended): for an id absent from the node table and from
    every edge endpoint, `getNode` returns null; `getCallers`,
    `getCallees`, `getFunctionsInFile` and the flat transitive traversals
    return empty results; the tree traversals return a bare root; and
    `allCallChains` returns no chain whenever the target differs from the
    missing start (for start = target it returns the one-node chain, and
    `searchNodes` is a substring search over the whole store, so neither
    is covered by the empty-result guarantee). -/
theorem claim_c9_missing_node_queries :
    ∀ (db : DB) (i t : String) (d dl mp : Nat),
      nodePresent db i = false →
      (∀ e ∈ db.edges, e.from_id ≠ i ∧ e.to_id ≠ i) →
      getNode db i = none
      ∧ getCallersRaw db i = []
      ∧ getCalleesRaw db i = []
      ∧ getFunctionsInFileRaw db i = []
      ∧ transitiveCallersFlat db i d = []
      ∧ transitiveCalleesFlat db i d = []
      ∧ transitiveCallersTree db i d = ⟨i, []⟩
      ∧ transitiveCalleesTree db i d = ⟨i, []⟩
      ∧ (t ≠ i → allCallChainsRaw db i t dl mp = []) := by
  intro db i t d dl mp hp hedges
  have hout : ∀ (q : String), immediateCalleesIds db i = []
      ∧ immediateCallersIds db i = [] := by
    intro _
    constructor
    · rw [immediateCalleesIds, List.filter_eq_nil_iff.mpr, List.map_nil]
      intro e he
      simp only [beq_iff_eq]
      exact (hedges e he).1
    · rw [immediateCallersIds, List.filter_eq_nil_iff.mpr, List.map_nil]
      intro e he
      simp only [beq_iff_eq]
      exact (hedges e he).2
  obtain ⟨hcallees, hcallers⟩ := hout ""
  refine ⟨?_, ?_, ?_, ?_, ?_, ?_, ?_, ?_, ?_⟩
  · -- getNode
    rw [getNode, List.find?_eq_none]
    intro n hn
    rw [nodePresent] at hp
    have := List.any_eq_false.mp hp n hn
    simpa using this
  · -- getCallers
    have hfil : db.edges.filter
        (fun e => e.to_id == i && (e.etype == "call" || e.etype == "method_call")) = [] := by
      rw [List.filter_eq_nil_iff]
      intro e he
      simp only [Bool.and_eq_true, beq_iff_eq, not_and]
      intro h
      exact absurd h (hedges e he).2
    rw [getCallersRaw, hfil]
    rfl
  · -- getCallees
    have hfil : db.edges.filter
        (fun e => e.from_id == i && (e.etype == "call" || e.etype == "method_call")) = [] := by
      rw [List.filter_eq_nil_iff]
      intro e he
      simp only [Bool.and_eq_true, beq_iff_eq, not_and]
      intro h
      exact absurd h (hedges e he).1
    rw [getCalleesRaw, hfil]
    rfl
  · -- getFunctionsInFile
    have hfil : db.edges.filter
        (fun e => e.from_id == i && e.etype == "contains") = [] := by
      rw [List.filter_eq_nil_iff]
      intro e he
      simp only [Bool.and_eq_true, beq_iff_eq, not_and]
      intro h
      exact absurd h (hedges e he).1
    rw [getFunctionsInFileRaw, hfil]
    rfl
  · -- transitiveCallersFlat
    rw [List.eq_nil_iff_forall_not_mem]
    intro u hu
    obtain ⟨hne, k, _, hre⟩ := ((transitiveCallersFlat_spec db i d).1 u).mp hu
    exact hne (reachIn_isolated hcallers k u hre)
  · -- transitiveCalleesFlat
    rw [List.eq_nil_iff_forall_not_mem]
    intro u hu
    obtain ⟨hne, k, _, hre⟩ := ((transitiveCalleesFlat_spec db i d).1 u).mp hu
    exact hne (reachIn_isolated hcallees k u hre)
  · -- transitiveCallersTree
    have halg : transitiveCallersTreeAlg db i d = .node i [] := by
      simp only [transitiveCallersTreeAlg, treeBuild]
      rw [hcallers]
      rfl
    rw [transitiveCallersTree, halg]
    cases d with
    | zero => by_cases h : nodePresent db i <;>
        simp [buildFilteredTree, convertTree, h, RawTree.rootId]
    | succ e =>
      simp [buildFilteredTree, convertTree, hp, RawTree.rootId]
  · -- transitiveCalleesTree
    have halg : transitiveCalleesTreeAlg db i d = .node i [] := by
      simp only [transitiveCalleesTreeAlg, treeBuild]
      rw [hcallees]
      rfl
    rw [transitiveCalleesTree, halg]
    cases d with
    | zero => by_cases h : nodePresent db i <;>
        simp [buildFilteredTree, convertTree, h, RawTree.rootId]
    | succ e =>
      simp [buildFilteredTree, convertTree, hp, RawTree.rootId]
  · -- allCallChains to a different target
    intro ht
    have hbeq : (i == t) = false := beq_eq_false_iff_ne.mpr (fun h => ht h.symm)
    rw [allCallChainsRaw, allPathsBetween]
    cases dl with
    | zero =>
      simp only [dfsPaths]
      rw [if_pos (by simp)]
      simp
    | succ e =>
      simp only [dfsPaths]
      rw [if_neg (by simp), if_neg (by simp [hbeq]), hcallees, dfsStep]
      simp

/-- Claim C9, witness: the guarantees at the concrete missing id. -/
theorem claim_c9_missing_node_queries_witness :
    getNode exC9db "x" = none
    ∧ getCallersRaw exC9db "x" = []
    ∧ getCalleesRaw exC9db "x" = []
    ∧ getFunctionsInFileRaw exC9db "x" = []
    ∧ transitiveCallersFlat exC9db "x" 200 = []
    ∧ transitiveCalleesFlat exC9db "x" 200 = []
    ∧ transitiveCallersTree exC9db "x" 50 = ⟨"x", []⟩
    ∧ transitiveCalleesTree exC9db "x" 50 = ⟨"x", []⟩
    ∧ ("y" ≠ "x" → allCallChainsRaw exC9db "x" "y" 20 1000 = []) :=
  claim_c9_missing_node_queries exC9db "x" "y" 200 20 1000 (by decide)
    (by intro e he; cases he)

/-! ## Hotspot lemmas (claim C1) -/

/-- Membership through the descending insertion. -/
theorem mem_insertDescBy {α : Type} (key : α → Nat) (a x : α) :
    ∀ l : List α, x ∈ insertDescBy key a l ↔ x = a ∨ x ∈ l := by
  intro l
  induction l with
  | nil => simp [insertDescBy]
  | cons b bs ih =>
    rw [insertDescBy]
    by_cases h : key a ≤ key b
    · rw [if_pos h]
      simp only [List.mem_cons, ih]
      tauto
    · rw [if_neg h]
      simp only [List.mem_cons]

/-- The descending insertion preserves descending sortedness. -/
theorem sorted_insertDescBy {α : Type} (key : α → Nat) (a : α) :
    ∀ l : List α, List.Sorted (fun p q => key q ≤ key p) l →
      List.Sorted (fun p q => key q ≤ key p) (insertDescBy key a l) := by
  intro l
  induction l with
  | nil => intro _; simp [insertDescBy]
  | cons b bs ih =>
    intro h
    rw [List.sorted_cons] at h
    rw [insertDescBy]
    by_cases hab : key a ≤ key b
    · rw [if_pos hab, List.sorted_cons]
      refine ⟨?_, ih h.2⟩
      intro c hc
      rcases (mem_insertDescBy key a c bs).mp hc with rfl | hc
      · exact hab
      · exact h.1 c hc
    · rw [if_neg hab, List.sorted_cons]
      refine ⟨?_, List.sorted_cons.mpr h⟩
      intro c hc
      rcases List.mem_cons.mp hc with rfl | hc
      · exact Nat.le_of_lt (Nat.lt_of_not_le hab)
      · exact Nat.le_trans (h.1 c hc) (Nat.le_of_lt (Nat.lt_of_not_le hab))

/-- The stable descending sort is sorted. -/
theorem sorted_stableSortDescBy {α : Type} (key : α → Nat) (l : List α) :
    List.Sorted (fun p q => key q ≤ key p) (stableSortDescBy key l) := by
  rw [stableSortDescBy]
  have haux : ∀ (l acc : List α), List.Sorted (fun p q => key q ≤ key p) acc →
      List.Sorted (fun p q => key q ≤ key p)
        (l.foldl (fun acc a => insertDescBy key a acc) acc) := by
    intro l
    induction l with
    | nil => intro acc h; exact h
    | cons a as ih =>
      intro acc h
      exact ih _ (sorted_insertDescBy key a acc h)
  exact haux l [] (by simp)

/-- The stable descending sort preserves membership. -/
theorem mem_stableSortDescBy {α : Type} (key : α → Nat) (x : α) (l : List α) :
    x ∈ stableSortDescBy key l ↔ x ∈ l := by
  rw [stableSortDescBy]
  have haux : ∀ (l acc : List α),
      (x ∈ l.foldl (fun acc a => insertDescBy key a acc) acc ↔ x ∈ acc ∨ x ∈ l) := by
    intro l
    induction l with
    | nil => intro acc; simp
    | cons a as ih =>
      intro acc
      rw [List.foldl_cons, ih, mem_insertDescBy]
      simp only [List.mem_cons]
      tauto
  rw [haux l []]
  simp

/-- Every row of a `GROUP BY`/`COUNT(*)` result carries the true count. -/
theorem mem_groupCounts {ids : List String} {p : String × Nat} (h : p ∈ groupCounts ids) :
    p.2 = ids.count p.1 := by
  rw [groupCounts] at h
  rcases List.mem_map.mp h with ⟨x, _, rfl⟩
  rfl

/-- The incoming group counts are the total incoming edge counts. -/
theorem computeHotspots_incoming_counts (db : DB) (top : Nat) :
    ∀ p ∈ (computeHotspots db top).1, p.2 = countIncoming db p.1 := by
  intro p hp
  rw [computeHotspots] at hp
  have hmem : p ∈ groupCounts (db.edges.map (·.to_id)) :=
    (mem_stableSortDescBy Prod.snd p _).mp (List.take_subset top _ hp)
  rw [mem_groupCounts hmem, countIncoming, List.count_eq_countP, List.countP_map,
    List.countP_eq_length_filter]
  rfl

/-- The outgoing group counts are the total outgoing edge counts. -/
theorem computeHotspots_outgoing_counts (db : DB) (top : Nat) :
    ∀ p ∈ (computeHotspots db top).2, p.2 = countOutgoing db p.1 := by
  intro p hp
  rw [computeHotspots] at hp
  have hmem : p ∈ groupCounts (db.edges.map (·.from_id)) :=
    (mem_stableSortDescBy Prod.snd p _).mp (List.take_subset top _ hp)
  rw [mem_groupCounts hmem, countOutgoing, List.count_eq_countP, List.countP_map,
    List.countP_eq_length_filter]
  rfl

/-- Hotspot example: node `B` has two incoming edges, only one of which
    is a `call` edge. -/
def exC1db : DB :=
  { nodes := [⟨"A", "function"⟩, ⟨"B", "function"⟩, ⟨"C", "function"⟩],
    edges := [⟨"A", "B", "contains"⟩, ⟨"C", "B", "call"⟩, ⟨"B", "A", "call"⟩] }

/-- Claim C1 (amended): each hotspot entry's `score` is `in × out`, its
    node is present in the table, and `in`/`out` are either the node's
    **total** incoming/outgoing edge count over edges of every kind
    (when the node made the top-`top` incoming/outgoing group list) or
    zero; the entries are sorted by score descending (stable order, no id
    tie-break) and at most `top` are returned. -/
theorem claim_c1_hotspots_properties :
    ∀ (db : DB) (top : Nat),
      (hotspots db top).length ≤ top
      ∧ List.Sorted (fun a b => b.score ≤ a.score) (hotspots db top)
      ∧ ∀ e ∈ hotspots db top,
          e.score = e.inC * e.outC
          ∧ nodePresent db e.nodeId = true
          ∧ (e.inC = countIncoming db e.nodeId ∨ e.inC = 0)
          ∧ (e.outC = countOutgoing db e.nodeId ∨ e.outC = 0) := by
  intro db top
  refine ⟨?_, ?_, ?_⟩
  · simp only [hotspots]
    exact List.length_take_le top _
  · simp only [hotspots]
    exact List.Pairwise.sublist (List.take_sublist top _)
      (sorted_stableSortDescBy HEntry.score _)
  · intro e he
    simp only [hotspots] at he
    have he2 := (mem_stableSortDescBy HEntry.score e _).mp (List.take_subset top _ he)
    obtain ⟨key, hkey, hf⟩ := List.mem_filterMap.mp he2
    by_cases hpk : nodePresent db key
    · rw [if_pos hpk] at hf
      obtain rfl := Option.some.inj hf
      refine ⟨rfl, hpk, ?_, ?_⟩
      · rcases hfind : (computeHotspots db top).1.find? (fun r => r.1 == key) with _ | r
        · right
          simp [hfind]
        · left
          have hr1 : r.1 = key := by simpa using List.find?_some hfind
          have h2 := computeHotspots_incoming_counts db top r
            (List.mem_of_find?_eq_some hfind)
          simp [hfind, h2, hr1]
      · rcases hfind : (computeHotspots db top).2.find? (fun r => r.1 == key) with _ | r
        · right
          simp [hfind]
        · left
          have hr1 : r.1 = key := by simpa using List.find?_some hfind
          have h2 := computeHotspots_outgoing_counts db top r
            (List.mem_of_find?_eq_some hfind)
          simp [hfind, h2, hr1]
    · rw [if_neg hpk] at hf
      cases hf

/-- Claim C1, counterexample: hotspot counts include every edge kind —
    the returned entry for `B` carries `in = 2` (a `contains` plus a
    `call` edge) while the count of incoming `call`/`method_call` edges
    is 1, so `in` is not the call-edge fan-in the claim states. -/
theorem claim_c1_counterexample :
    (∃ e ∈ hotspots exC1db 20, e.nodeId = "B" ∧ e.inC = 2)
    ∧ countIncomingCalls exC1db "B" = 1
    ∧ ¬ ∀ e ∈ hotspots exC1db 20, e.inC = countIncomingCalls exC1db e.nodeId := by
  exact ⟨by decide, by decide, by decide⟩

/-! ## Builder lemmas (claim C5) -/

/-- The node list of a builder state only grows by appending. -/
def NodesExtend (st st' : BState) : Prop :=
  ∃ t, st'.nodes = st.nodes ++ t

theorem NodesExtend.refl (st : BState) : NodesExtend st st :=
  ⟨[], by simp⟩

theorem NodesExtend.addNode {st st' : BState} (h : NodesExtend st st') (n : BNode) :
    NodesExtend st (addBNode st' n) := by
  obtain ⟨t, ht⟩ := h
  rw [addBNode]
  by_cases hc : st'.nodes.any (fun m => m.id == n.id)
  · exact ⟨t, by rw [if_pos hc, ht]⟩
  · exact ⟨t ++ [n], by rw [if_neg hc]; simp [ht]⟩

theorem NodesExtend.addEdge {st st' : BState} (h : NodesExtend st st') (e : BEdge) :
    NodesExtend st (addBEdge st' e) := by
  obtain ⟨t, ht⟩ := h
  rw [addBEdge]
  by_cases hc : st'.edges.any
      (fun f => f.fromId == e.fromId && f.toId == e.toId && f.etype == e.etype)
  · exact ⟨t, by rw [if_pos hc, ht]⟩
  · exact ⟨t, by rw [if_neg hc]; exact ht⟩

theorem NodesExtend.trans {s1 s2 s3 : BState}
    (h1 : NodesExtend s1 s2) (h2 : NodesExtend s2 s3) : NodesExtend s1 s3 := by
  obtain ⟨t, ht⟩ := h1
  obtain ⟨u, hu⟩ := h2
  exact ⟨t ++ u, by rw [hu, ht, List.append_assoc]⟩

theorem nodesExtend_ensureCaller (st : BState) (c : IRCall) :
    NodesExtend st (ensureCaller st c) := by
  rw [ensureCaller]
  split_ifs <;> first
    | exact NodesExtend.refl st
    | exact (NodesExtend.refl st).addNode _

theorem NodesExtend.iteAdd {st st' : BState} (h : NodesExtend st st') (b : Bool)
    (n : BNode) : NodesExtend st (if b = true then st' else addBNode st' n) := by
  cases b
  · simp only [Bool.false_eq_true, if_false]
    exact h.addNode n
  · simp only [if_true]
    exact h

theorem nodesExtend_processCall (st : BState) (c : IRCall) :
    NodesExtend st (buildProcessCall st c) := by
  have hbase := nodesExtend_ensureCaller st c
  rw [buildProcessCall]
  by_cases h1 : (c.resolved && !c.external) = true
  · rw [if_pos h1]
    simp only [caseResolved]
    exact (hbase.iteAdd _ _).addEdge _
  · rw [if_neg h1]
    by_cases h2 : (c.external && callHasModule c) = true
    · rw [if_pos h2]
      simp only [caseExternal]
      exact (((hbase.iteAdd _ _).addEdge _).iteAdd _ _)
    · rw [if_neg h2]
      simp only [caseUnresolved]
      exact (hbase.iteAdd _ _).addEdge _

/-- Node rows survive any later processing: they are never removed or
    rewritten. -/
theorem mem_nodes_processCall {st : BState} {n : BNode}
    (h : n ∈ st.nodes) (c : IRCall) : n ∈ (buildProcessCall st c).nodes := by
  obtain ⟨t, ht⟩ := nodesExtend_processCall st c
  rw [ht]
  exact List.mem_append_left t h

theorem mem_nodes_foldl {n : BNode} :
    ∀ (calls : List IRCall) (st : BState),
      n ∈ st.nodes → n ∈ (calls.foldl buildProcessCall st).nodes := by
  intro calls
  induction calls with
  | nil => intro st h; exact h
  | cons c cs ih =>
    intro st h
    exact ih _ (mem_nodes_processCall h c)

/-- `hasBNode` as an existence statement. -/
theorem hasBNode_iff (st : BState) (x : String) :
    hasBNode st x = true ↔ ∃ n ∈ st.nodes, n.id = x := by
  rw [hasBNode, List.any_eq_true]
  constructor
  · rintro ⟨n, hn, he⟩
    exact ⟨n, hn, by simpa using he⟩
  · rintro ⟨n, hn, he⟩
    exact ⟨n, hn, by simpa using he⟩

/-- Adding a node with a different id does not make `x` present. -/
theorem hasBNode_addBNode_ne {st : BState} {n : BNode} {x : String} (h : n.id ≠ x) :
    hasBNode (addBNode st n) x = hasBNode st x := by
  rw [addBNode]
  split_ifs with hc
  · rfl
  · rw [hasBNode, hasBNode]
    simp only [List.any_append]
    have : ([n].any (fun m => m.id == x)) = false := by
      simp [h]
    rw [this, Bool.or_false]

/-- `addBNode` on a fresh id appends the node. -/
theorem addBNode_fresh {st : BState} {n : BNode} (h : hasBNode st n.id = false) :
    (addBNode st n).nodes = st.nodes ++ [n] := by
  rw [addBNode, if_neg]
  rw [hasBNode] at h
  simp [h]

theorem addBEdge_nodes (st : BState) (e : BEdge) : (addBEdge st e).nodes = st.nodes := by
  rw [addBEdge]
  split_ifs <;> rfl

theorem mem_addBNode {st : BState} {n : BNode} (h : n ∈ st.nodes) (n' : BNode) :
    n ∈ (addBNode st n').nodes := by
  obtain ⟨t, ht⟩ := (NodesExtend.refl st).addNode n'
  rw [ht]
  exact List.mem_append_left t h

theorem hasBNode_ensureCaller_ne {st : BState} {c : IRCall} {x : String}
    (hx : fromNodeIdOf c ≠ x) :
    hasBNode (ensureCaller st c) x = hasBNode st x := by
  rw [ensureCaller]
  by_cases h1 : strEndsWith c.fromId ":TOPLEVEL" = true
  · rw [if_pos h1]
    by_cases h2 : hasBNode st (fromNodeIdOf c) = true
    · rw [if_pos h2]
    · rw [if_neg h2]
      refine hasBNode_addBNode_ne ?_
      exact hx
  · rw [if_neg h1]
    by_cases h2 : hasBNode st (fromNodeIdOf c) = true
    · rw [if_pos h2]
    · rw [if_neg h2]
      refine hasBNode_addBNode_ne ?_
      exact hx

/-- After an optional guarded insertion of a node with id `x`, a node
    with id `x` exists. -/
theorem ext_node_after (st3 : BState) (extN : BNode) (x : String) (hid : extN.id = x) :
    ∃ n ∈ (if hasBNode st3 x = true then st3 else addBNode st3 extN).nodes, n.id = x := by
  by_cases hx : hasBNode st3 x = true
  · rw [if_pos hx]
    obtain ⟨n, hn, hn2⟩ := (hasBNode_iff _ _).mp hx
    exact ⟨n, hn, hn2⟩
  · rw [if_neg hx]
    rw [Bool.not_eq_true] at hx
    refine ⟨extN, ?_, hid⟩
    rw [addBNode_fresh (by rw [hid]; exact hx)]
    exact List.mem_append_right _ (List.mem_singleton.mpr rfl)

/-- A freshly inserted node survives the subsequent edge insertion and
    the optional external-node insertion. -/
theorem mem_target_after (stE : BState) (pnode : BNode) (e : BEdge) (extN : BNode)
    (x : String) (h : hasBNode stE pnode.id = false) :
    pnode ∈ (if hasBNode (addBEdge (addBNode stE pnode) e) x = true
             then addBEdge (addBNode stE pnode) e
             else addBNode (addBEdge (addBNode stE pnode) e) extN).nodes := by
  have h1 : pnode ∈ (addBNode stE pnode).nodes := by
    rw [addBNode_fresh h]
    exact List.mem_append_right _ (List.mem_singleton.mpr rfl)
  have h2 : pnode ∈ (addBEdge (addBNode stE pnode) e).nodes := by
    rw [addBEdge_nodes]
    exact h1
  by_cases hx : hasBNode (addBEdge (addBNode stE pnode) e) x = true
  · rw [if_pos hx]
    exact h2
  · rw [if_neg hx]
    exact mem_addBNode h2 _

/-- Case B of the call loop: the `external:<moduleName>` node exists
    afterwards, and — when no node with the call's target id existed
    before the call was processed and the caller id does not collide with
    the target id — the created target is a placeholder carrying
    `moduleName` and `external` metadata. -/
theorem processCall_external {st : BState} {c : IRCall} {m : String}
    (hres : c.resolved = false) (hext : c.external = true) (hmod : c.moduleName = some m)
    (hm : ¬ m = "") :
    (∃ n ∈ (buildProcessCall st c).nodes, n.id = "external:" ++ m)
    ∧ (hasBNode st c.toId = false → fromNodeIdOf c ≠ c.toId →
       ∃ n ∈ (buildProcessCall st c).nodes,
         n.id = c.toId ∧ n.ntype = "placeholder"
         ∧ n.meta.moduleName = some m ∧ n.meta.external = some true) := by
  have hA : ¬ ((c.resolved && !c.external) = true) := by simp [hres, hext]
  have hB : (c.external && callHasModule c) = true := by
    simp [hext, callHasModule, hmod, hm]
  have hstep : buildProcessCall st c
      = caseExternal (ensureCaller st c) c (isFrameworkCall c) := by
    simp only [buildProcessCall]
    rw [if_neg hA, if_pos hB]
  rw [hstep]
  simp only [caseExternal]
  rw [hmod]
  simp only [Option.getD_some]
  constructor
  · refine ext_node_after _ _ _ ?_
    rfl
  · intro h0 hfrom
    have hE : hasBNode (ensureCaller st c) c.toId = false := by
      rw [hasBNode_ensureCaller_ne hfrom]
      exact h0
    rw [hE]
    simp only [Bool.false_eq_true, if_false]
    refine ⟨_, mem_target_after _ _ _ _ _ ?_, rfl, rfl, rfl, rfl⟩
    exact hE

/-- Two external method calls on the same line with the same method name
    but different receivers/modules: both target the placeholder id `P`,
    once with module `m1` and once with module `m2`. -/
def exC5call1 : IRCall :=
  ⟨"f", "P", some "method_call", some "foo", some "a", some "foo", false, true, some "m1"⟩

def exC5call2 : IRCall :=
  ⟨"g", "P", some "method_call", some "foo", some "b", some "foo", false, true, some "m2"⟩

def exC5ir : IR :=
  { functions := [⟨"f", some "f", "x.js", ⟨1, 0⟩, ⟨1, 5⟩⟩, ⟨"g", some "g", "x.js", ⟨2, 0⟩, ⟨2, 5⟩⟩],
    classes := [], methods := [], calls := [exC5call1, exC5call2], files := ["x.js"] }

/-- A single external call on a fresh placeholder target. -/
def exC5witCall : IRCall :=
  ⟨"f", "placeholder::x.js::sign::3", some "method_call", some "sign", some "jwt",
   some "sign", false, true, some "jsonwebtoken"⟩

def exC5witIr : IR :=
  { functions := [⟨"f", some "f", "x.js", ⟨1, 0⟩, ⟨1, 5⟩⟩],
    classes := [], methods := [], calls := [exC5witCall], files := ["x.js"] }

/-- Claim C5 (amended): for every unresolved external call with a module
    name, the built graph contains a node `external:<moduleName>`; and
    provided no node with the call's target id exists when the call is
    processed (and the caller id does not collide with it), the target is
    a placeholder node whose metadata carries that `moduleName` and
    `external = true`.  Without the freshness proviso the placeholder may
    have been created earlier with different metadata (see the
    counterexample). -/
theorem claim_c5_external_call_nodes :
    ∀ (ir : IR) (pre suf : List IRCall) (c : IRCall) (m : String),
      ir.calls = pre ++ c :: suf →
      c.resolved = false → c.external = true → c.moduleName = some m → ¬ m = "" →
      (∃ n ∈ (buildGraph ir).nodes, n.id = "external:" ++ m)
      ∧ (hasBNode (pre.foldl buildProcessCall (buildBase ir)) c.toId = false →
         fromNodeIdOf c ≠ c.toId →
         ∃ n ∈ (buildGraph ir).nodes,
           n.id = c.toId ∧ n.ntype = "placeholder"
           ∧ n.meta.moduleName = some m ∧ n.meta.external = some true) := by
  intro ir pre suf c m hcalls hres hext hmod hm
  have hfold : buildGraph ir
      = suf.foldl buildProcessCall
          (buildProcessCall (pre.foldl buildProcessCall (buildBase ir)) c) := by
    rw [buildGraph, hcalls, List.foldl_append, List.foldl_cons]
  obtain ⟨hextnode, hfresh⟩ :=
    @processCall_external (pre.foldl buildProcessCall (buildBase ir)) c m
      hres hext hmod hm
  constructor
  · obtain ⟨n, hn, hid⟩ := hextnode
    exact ⟨n, by rw [hfold]; exact mem_nodes_foldl suf _ hn, hid⟩
  · intro h0 hfrom
    obtain ⟨n, hn, hprops⟩ := hfresh h0 hfrom
    exact ⟨n, by rw [hfold]; exact mem_nodes_foldl suf _ hn, hprops⟩

/-- Claim C5, witness: the single external `jwt.sign` call yields the
    `external:jsonwebtoken` node and a placeholder carrying
    `moduleName = jsonwebtoken`. -/
theorem claim_c5_external_call_nodes_witness :
    (∃ n ∈ (buildGraph exC5witIr).nodes, n.id = "external:" ++ "jsonwebtoken")
    ∧ (hasBNode (([] : List IRCall).foldl buildProcessCall (buildBase exC5witIr))
          "placeholder::x.js::sign::3" = false →
       fromNodeIdOf exC5witCall ≠ "placeholder::x.js::sign::3" →
       ∃ n ∈ (buildGraph exC5witIr).nodes,
         n.id = "placeholder::x.js::sign::3" ∧ n.ntype = "placeholder"
         ∧ n.meta.moduleName = some "jsonwebtoken" ∧ n.meta.external = some true) :=
  claim_c5_external_call_nodes exC5witIr [] [] exC5witCall "jsonwebtoken"
    rfl rfl rfl rfl (by decide)

/-- Claim C5, counterexample: call `exC5call2` is unresolved, external,
    with module name `m2`, yet the placeholder node `P` it targets holds
    `moduleName = m1` (it was created by the earlier call), so its
    metadata does not contain this call's module name. -/
theorem claim_c5_counterexample :
    (exC5call2 ∈ exC5ir.calls ∧ exC5call2.external = true
      ∧ exC5call2.resolved = false ∧ exC5call2.moduleName = some "m2")
    ∧ (∀ n ∈ (buildGraph exC5ir).nodes, n.id = "P" → n.meta.moduleName = some "m1")
    ∧ ¬ (∀ c_ ∈ exC5ir.calls, c_.external = true → c_.resolved = false →
          ∀ m, c_.moduleName = some m →
          ∃ n ∈ (buildGraph exC5ir).nodes,
            n.id = c_.toId ∧ n.meta.moduleName = some m) := by
  exact ⟨by decide, by decide, by decide⟩

/-! ## Pass 1.5 sentinel resolution (claim C7) -/

/-- The inner loop over the file's functions pushes the id of **every**
    function bearing the local name, in definition order. -/
theorem sentinelIds_eq (fns : List PFn) (n : String) :
    sentinelIds fns n = (fns.filter (fun f => f.name == some n)).map (·.id) := by
  rw [sentinelIds]
  have haux : ∀ (fns : List PFn) (acc : List String),
      fns.foldl (fun acc fn => if fn.name == some n then acc ++ [fn.id] else acc) acc
        = acc ++ (fns.filter (fun f => f.name == some n)).map (·.id) := by
    intro fns
    induction fns with
    | nil => intro acc; simp
    | cons f fns ih =>
      intro acc
      rw [List.foldl_cons]
      by_cases hf : (f.name == some n) = true
      · rw [if_pos hf, ih]
        simp [List.filter_cons, hf]
      · rw [if_neg hf, ih]
        simp [List.filter_cons, hf]
  rw [haux fns []]
  simp

/-- Two functions sharing the local name `a` in one file. -/
def exC7fns : List PFn := [⟨"f1", some "a", "x.js"⟩, ⟨"f2", some "a", "x.js"⟩]

/-- Claim C7 (amended): after the walk, each export entry value that is a
    `__LOCAL__:<n>` sentinel is replaced by the ids of **all** functions
    named `n` defined in the file, in definition order (a single id when
    the name is unique in the file, nothing when no function bears it);
    other values are kept verbatim. -/
theorem claim_c7_sentinel_resolution :
    ∀ (fns : List PFn) (exports : List (String × List String)),
      (∀ ids : List String,
        resolveEntryList fns ids
          = ids.flatMap (fun v =>
              if isLocalSentinel v then
                (fns.filter (fun f => f.name == some (sentinelName v))).map (·.id)
              else [v]))
      ∧ resolveLocalExports fns exports
          = exports.map (fun kv =>
              (kv.1, kv.2.flatMap (fun v =>
                if isLocalSentinel v then
                  (fns.filter (fun f => f.name == some (sentinelName v))).map (·.id)
                else [v]))) := by
  intro fns exports
  have hentry : ∀ ids : List String,
      resolveEntryList fns ids
        = ids.flatMap (fun v =>
            if isLocalSentinel v then
              (fns.filter (fun f => f.name == some (sentinelName v))).map (·.id)
            else [v]) := by
    intro ids
    induction ids with
    | nil => rfl
    | cons v vs ih =>
      rw [resolveEntryList, ih, List.flatMap_cons]
      by_cases hv : isLocalSentinel v = true
      · rw [if_pos hv, if_pos hv, sentinelIds_eq]
      · rw [if_neg hv, if_neg hv]
  refine ⟨hentry, ?_⟩
  rw [resolveLocalExports]
  exact List.map_congr_left (fun kv _ => by rw [hentry kv.2])

/-- Claim C7, counterexample: with two functions named `a` in the file,
    the sentinel is replaced by **both** ids, not by the first one's id
    alone. -/
theorem claim_c7_counterexample :
    ((exC7fns.find? (fun f => f.name == some "a")).map (·.id) = some "f1")
    ∧ resolveEntryList exC7fns ["__LOCAL__:a"] = ["f1", "f2"]
    ∧ ¬ resolveEntryList exC7fns ["__LOCAL__:a"] = ["f1"] := by
  exact ⟨by decide, by decide, by decide⟩

/-! ## C6: global unique-name fallback (Rule 3) -/

/-- `resolveCall` on a plain (non-method, or receiver-less) call whose name
    is neither imported nor a same-file function reduces to the Rule-3
    registry match. -/
theorem resolveCall_plain (files : List PFile) (fr : String → String → Option String)
    (pd : PFile) (c : PCall) (name : String)
    (hname : c.calleeName = some name)
    (hplain : (c.ctype == some "method_call") = false ∨ c.receiver = none)
    (himp : pd.imports.lookup name = none)
    (hlocal : pd.functions.find? (fun f => f.name == some name) = none) :
    resolveCall files fr pd c
      = (match functionRegistry files name with
         | [f] => { c with toId := f.id, resolved := true, external := false, moduleName := none }
         | _ => { c with toId := normalizeSep c.toId, resolved := false, external := false, moduleName := none }) := by
  rcases hplain with hct | hrec
  · simp only [resolveCall, hname, hct, Bool.false_eq_true, if_false, himp, hlocal]
    rcases functionRegistry files name with _ | ⟨f, _ | ⟨g, fs⟩⟩ <;> rfl
  · simp only [resolveCall, hname, hrec, himp, hlocal, ite_self]
    rcases functionRegistry files name with _ | ⟨f, _ | ⟨g, fs⟩⟩ <;> rfl

/-- When no file has an export entry under `name`, the registry holds
    exactly the functions bearing the name. -/
theorem functionRegistry_no_exports (files : List PFile) (name : String)
    (hexp : ∀ q ∈ files, q.exports.lookup name = none) :
    functionRegistry files name
      = files.flatMap (fun q => q.functions.filter (fun fn => fn.name == some name)) := by
  induction files with
  | nil => rfl
  | cons p ps ih =>
    simp only [functionRegistry, List.flatMap_cons] at *
    rw [hexp p (by simp), ih (fun q hq => hexp q (by simp [hq]))]
    simp

/-- C6: for a call that falls through to Rule 3 (plain call, name not
    imported, no same-file function of that name), IF no file exports an
    entry under the callee name, then: a unique project-wide function
    bearing the name resolves the call to its id, and two or more bearers
    leave the call unresolved with its placeholder target.  (Without the
    export proviso the claim fails: the registry double-counts exported
    self-named functions, see the counterexample.) -/
theorem claim_c6_global_unique_name
    (files : List PFile) (fr : String → String → Option String)
    (pd : PFile) (c : PCall) (name : String)
    (hname : c.calleeName = some name)
    (hplain : (c.ctype == some "method_call") = false ∨ c.receiver = none)
    (himp : pd.imports.lookup name = none)
    (hlocal : pd.functions.find? (fun f => f.name == some name) = none)
    (hexp : ∀ q ∈ files, q.exports.lookup name = none) :
    (∀ f, files.flatMap (fun q => q.functions.filter (fun fn => fn.name == some name)) = [f] →
        resolveCall files fr pd c
          = { c with toId := f.id, resolved := true, external := false, moduleName := none })
    ∧ (2 ≤ (files.flatMap (fun q => q.functions.filter (fun fn => fn.name == some name))).length →
        (resolveCall files fr pd c).resolved = false
          ∧ (resolveCall files fr pd c).external = false
          ∧ (resolveCall files fr pd c).toId = normalizeSep c.toId) := by
  have hreg := functionRegistry_no_exports files name hexp
  rw [resolveCall_plain files fr pd c name hname hplain himp hlocal, hreg]
  constructor
  · intro f hf
    rw [hf]
  · intro hlen
    cases hB : files.flatMap (fun q => q.functions.filter (fun fn => fn.name == some name)) with
    | nil => rw [hB] at hlen; simp at hlen
    | cons a t =>
      cases t with
      | nil => rw [hB] at hlen; simp at hlen
      | cons b r => exact ⟨rfl, rfl, rfl⟩

def exC6wA : PFile := ⟨"a.js", [⟨"f1", some "foo", "a.js"⟩], [], [], [], [], []⟩

def exC6call : PCall :=
  ⟨"b.js:TOPLEVEL", "placeholder::b.js::foo::1", some "call", some "foo",
   none, none, false, false, none⟩

def exC6fileB : PFile := ⟨"b.js", [], [], [exC6call], [], [], []⟩

def noResolve : String → String → Option String := fun _ _ => none

/-- Witness for C6 at a concrete two-file project. -/
theorem claim_c6_global_unique_name_witness :
    resolveCall [exC6wA, exC6fileB] noResolve exC6fileB exC6call
      = { exC6call with toId := "f1", resolved := true, external := false, moduleName := none } :=
  (claim_c6_global_unique_name [exC6wA, exC6fileB] noResolve exC6fileB exC6call "foo"
      (by decide) (Or.inl (by decide)) (by decide) (by decide) (by decide)).1
    ⟨"f1", some "foo", "a.js"⟩ (by decide)

def exC6fileA : PFile :=
  ⟨"a.js", [⟨"f1", some "foo", "a.js"⟩], [], [], [], [], [("foo", ["f1"])]⟩

def exC6files : List PFile := [exC6fileA, exC6fileB]

/-- C6 counterexample: exactly one function project-wide bears `foo`, the
    call falls through to Rule 3, yet it stays unresolved — `fileA`
    exports `foo -> [f1]` and `f1` is itself named `foo`, so the registry
    lists it twice and the unique-match test fails. -/
theorem claim_c6_counterexample :
    (exC6files.flatMap (fun q => q.functions.filter (fun fn => fn.name == some "foo"))).length = 1
    ∧ exC6call.calleeName = some "foo"
    ∧ (exC6call.ctype == some "method_call") = false
    ∧ exC6fileB.imports.lookup "foo" = none
    ∧ exC6fileB.functions.find? (fun f => f.name == some "foo") = none
    ∧ (resolveCall exC6files noResolve exC6fileB exC6call).resolved = false := by
  refine ⟨by decide, by decide, by decide, by decide, by decide, ?_⟩
  decide
